import Mathlib

/-!
# Channel-based semaphore (`semaphore.go`)

A small-step, interleaving model of the Go package `semaphore`.

* `Semaphore` holds the two fields of the Go struct, seen through what the
  code observes of them: the buffered channel `tokens` (its capacity and its
  current length) and the `sync.WaitGroup` `wg` (its counter, its number of
  registered waiters and its wake-up semaphore).
* Every goroutine that is inside one of the methods is a `Thread` with a
  program counter.  One transition executes one atomic operation on shared
  state: a channel operation, one atomic operation of the `WaitGroup`, the `go`
  statement, the evaluation of `len(s.tokens)`.  A purely local statement (a
  test of a value just read, a `return`, the raising of a panic) is merged
  with the shared operation before it.
* A statement has one of three outcomes: it is blocked (or does not apply),
  it panics, or it leads to a next state.  A panic ends the program: `step`
  gives the next state only, so that the reachable states are the states of
  the executions up to their first panic, and `panics` tells which actions
  panic.  A panic is taken to happen at the atomic operation whose result
  makes it certain: when an `Add(1)` lands between the atomic subtraction of a
  `Done()` that brought the counter to zero and the reset of the state, that is
  the atomic addition of the `Add(1)`; the re-read of the state in `Done()`, which
  would panic next, is then no longer reached.
* An execution is a list of actions, and nothing is assumed about fairness.

Modelling decisions:

* The work function `f` is opaque: a worker stays at `WorkPc.f` until the
  action that makes `f` return, which may never happen.  Whatever `f` does with
  the semaphore (the source allows it to call `TryAdd`) is covered by the fact
  that new calls may enter at any time.
* A buffered channel of capacity `cap` accepts a send iff fewer than `cap`
  tokens are buffered and a receive iff one is buffered.  With `cap = 0` the
  channel is unbuffered and a send proceeds only as a `handoff` with a worker
  that stands at its receive.
* The `WaitGroup` follows the library: `Add(delta)` adds to the counter
  atomically, panics on a negative counter and on an `Add` from zero while
  waiters are registered, and, when it brings the counter to zero with
  waiters registered, re-reads the state, resets it and releases the wake-up
  semaphore once per waiter; `Done()` is `Add(-1)`; `Wait()` reads the state,
  returns if the counter is zero, otherwise registers with a compare-and-swap,
  sleeps on the semaphore and, woken, panics unless the state is zero.  The
  counter and the number of waiters are unbounded here, where the library
  packs them in 32 bits each.
* A context is `none` while `ctx.Done()` is open and `some e` once it is
  closed, with `ctx.Err() = e`; it can become done at any time and then stays
  so.
-/

namespace semaphore

/-! ## Data model -/

/-- The non-nil values of `ctx.Err()`. -/
inductive CtxErr where
  | canceled
  | deadlineExceeded
  deriving DecidableEq

/-- The three admission methods. -/
inductive Op where
  | add
  | tryAdd
  | mustAdd
  deriving DecidableEq

/-- What a finished admission call handed back to its caller:
`Add` returns an `error` (`none` is `nil`), `TryAdd` a `bool`,
`MustAdd` nothing. -/
inductive Result where
  | error (e : Option CtxErr)
  | bool (b : Bool)
  | unit
  deriving DecidableEq

/-- The panics of `sync.WaitGroup`. -/
inductive Panic where
  /-- the panic "sync: negative WaitGroup counter" -/
  | negativeCounter
  /-- the panic "sync: WaitGroup misuse: Add called concurrently with Wait" -/
  | addDuringWait
  /-- the panic "sync: WaitGroup is reused before previous Wait has returned" -/
  | reusedBeforeWait
  deriving DecidableEq

/-- Program counter inside `wg.Add`, after its atomic addition has brought the
counter to zero while `w` waiters were registered. -/
inductive WgPc where
  /-- about to re-read the state and compare it with the one just written -/
  | check (w : Nat)
  /-- about to reset the state to zero -/
  | store (w : Nat)
  /-- about to release the wake-up semaphore, `k` times in all -/
  | wake (k : Nat)
  deriving DecidableEq

/-- Program counter inside `startWithToken` (lines 25-32). -/
inductive StartPc where
  /-- about to execute `s.wg.Add(1)` (line 26) -/
  | wgAdd
  /-- inside `s.wg.Add(1)`, after its atomic addition -/
  | wgTail (q : WgPc)
  /-- about to execute the `go` statement (line 27) -/
  | go
  deriving DecidableEq

/-- Program counter of a goroutine inside `Add`, `TryAdd` or `MustAdd`. -/
inductive CallPc where
  /-- at the `select` of `Add` (line 39) or `TryAdd` (line 51), or at the send
  of `MustAdd` (line 62) -/
  | acquire
  /-- inside `startWithToken` (lines 44, 56, 63) -/
  | start (p : StartPc)
  /-- the call has returned -/
  | returned (r : Result)
  deriving DecidableEq

/-- Program counter of a goroutine inside `Wait` (lines 67-71). -/
inductive WaitPc where
  /-- about to evaluate the loop condition `len(s.tokens) > 0` (line 68) -/
  | check
  /-- inside the loop body, entering `s.wg.Wait()` (line 69): about to read the
  state of the `WaitGroup` -/
  | wgWait
  /-- inside `s.wg.Wait()`: has read counter `v` (not zero) and `w` waiters, about
  to register with a compare-and-swap -/
  | wgCas (v : Int) (w : Nat)
  /-- inside `s.wg.Wait()`: registered, sleeping on the wake-up semaphore -/
  | wgPark
  /-- inside `s.wg.Wait()`: woken, about to re-read the state -/
  | wgWoken
  /-- the call has returned -/
  | returned
  deriving DecidableEq

/-- Program counter of the goroutine started at line 27. -/
inductive WorkPc where
  /-- the call `f()` is running (line 28) -/
  | f
  /-- the call `f()` has returned; about to execute `<-s.tokens` (line 29) -/
  | release
  /-- about to execute `s.wg.Done()` (line 30) -/
  | wgDone
  /-- inside `s.wg.Done()`, after its atomic subtraction -/
  | wgTail (q : WgPc)
  /-- the goroutine has ended -/
  | exit
  deriving DecidableEq

/-- A goroutine that is using the semaphore.  `ctx` is the state of the
context passed to `Add`: `none` while `ctx.Done()` is open, `some e` once it is
closed and `ctx.Err()` is `e`.  A worker remembers the index of the call that
started it, that is, whose `f` it runs. -/
inductive Thread where
  | caller (op : Op) (ctx : Option CtxErr) (pc : CallPc)
  | waiter (pc : WaitPc)
  | worker (owner : Nat) (pc : WorkPc)
  deriving DecidableEq

/-- The struct `Semaphore` (lines 15-18): the channel `tokens`, given by
`cap(s.tokens)` and `len(s.tokens)`, and the `WaitGroup`, given by its counter
`wg`, the number `waiters` of goroutines registered in `wg.Wait()` and the count
`sema` of its wake-up semaphore. -/
structure Semaphore where
  cap : Nat
  tokens : Nat
  wg : Int
  waiters : Nat
  sema : Nat
  deriving DecidableEq

/-- History counters.  They are not program variables: they count how often
each of the four shared operations has been executed so far. -/
structure History where
  /-- completed sends `s.tokens <- token{}` -/
  sends : Nat
  /-- completed receives `<-s.tokens` -/
  recvs : Nat
  /-- atomic additions of `s.wg.Add(1)` -/
  adds : Nat
  /-- atomic subtractions of `s.wg.Done()` -/
  dones : Nat
  deriving DecidableEq

/-- A global state: the semaphore, the goroutines using it, the history. -/
structure State where
  sem : Semaphore
  threads : List Thread
  hist : History
  deriving DecidableEq

/-- The way a goroutine takes its next statement. -/
inductive Branch where
  /-- the send `s.tokens <- token{}` goes through the buffer -/
  | send
  /-- the case `<-ctx.Done()` of the `select` in `Add` -/
  | ctxDone
  /-- the `default` case of the `select` in `TryAdd` -/
  | dflt
  /-- the next statement, where there is no choice -/
  | next
  deriving DecidableEq

/-- One transition of the system. -/
inductive Action where
  /-- a goroutine enters `Add(ctx, f)`, `TryAdd(f)` or `MustAdd(f)`; for `Add`,
  `ctx` is the state of its context at that moment -/
  | call (op : Op) (ctx : Option CtxErr)
  /-- a goroutine enters `Wait()` -/
  | callWait
  /-- the context of call `t` becomes done, with `ctx.Err() = e` -/
  | cancel (t : Nat) (e : CtxErr)
  /-- goroutine `t` executes its next statement -/
  | run (t : Nat) (b : Branch)
  /-- on an unbuffered channel, the sender `t` and the receiver `u` meet -/
  | handoff (t u : Nat)
  deriving DecidableEq

/-- What one statement of a goroutine changes: the semaphore, the history,
the goroutine itself, and the goroutines it starts. -/
structure Moved where
  sem : Semaphore
  hist : History
  self : Thread
  started : List Thread

/-- The outcome of one statement of a goroutine. -/
inductive Outcome where
  /-- the goroutine is blocked, or the branch does not apply -/
  | blocked
  /-- the statement panics -/
  | panic (p : Panic)
  /-- the statement is executed -/
  | next (m : Moved)

/-- The outcome of one atomic operation inside the `WaitGroup`. -/
inductive WgRes where
  /-- the operation panics -/
  | panic (p : Panic)
  /-- the call of `wg.Add` returns -/
  | done (c : Semaphore)
  /-- the call of `wg.Add` goes on at `q` -/
  | more (c : Semaphore) (q : WgPc)

/-! ## The library: channel and `WaitGroup` -/

/-- A send through the buffer of `tokens`: it can proceed iff the buffer is
not full. -/
def chanSend (c : Semaphore) : Option Semaphore :=
  if c.tokens < c.cap then some { c with tokens := c.tokens + 1 } else none

/-- A receive from the buffer of `tokens`: it can proceed iff the buffer is
not empty. -/
def chanRecv (c : Semaphore) : Option Semaphore :=
  if 0 < c.tokens then some { c with tokens := c.tokens - 1 } else none

/-- The atomic addition of `wg.Add(delta)` and the tests on its result `(v, w)`:
a negative `v` panics; `w != 0 && delta > 0 && v == delta` panics; if `v > 0` or
`w == 0` the call returns; otherwise `v` is zero with `w` waiters registered,
and the call goes on to re-read the state. -/
def wgAdd (c : Semaphore) (delta : Int) : WgRes :=
  if c.wg + delta < 0 then .panic .negativeCounter
  else if c.waiters ≠ 0 ∧ 0 < delta ∧ c.wg + delta = delta then .panic .addDuringWait
  else if 0 < c.wg + delta ∨ c.waiters = 0 then .done { c with wg := c.wg + delta }
  else .more { c with wg := c.wg + delta } (.check c.waiters)

/-- The rest of `wg.Add` once the counter is zero with `w` waiters registered:
the state is read again and must still be `(0, w)`, else the call panics; the
state is reset to zero; the semaphore is released `w` times. -/
def wgTail (c : Semaphore) : WgPc → WgRes
  | .check w =>
      if c.wg = 0 ∧ c.waiters = w then .more c (.store w) else .panic .addDuringWait
  | .store w =>
      if w = 0 then .done { c with wg := 0, waiters := 0 }
      else .more { c with wg := 0, waiters := 0 } (.wake w)
  | .wake k =>
      if k ≤ 1 then .done { c with sema := c.sema + 1 }
      else .more { c with sema := c.sema + 1 } (.wake (k - 1))

/-! ## The program -/

/-- The constructor `New` (lines 21-23): `make(chan token, n)` panics for a
negative `n` (`none`); otherwise the channel is empty and the `WaitGroup` is
zero. -/
def New (n : Int) : Option Semaphore :=
  if n < 0 then none
  else some { cap := n.toNat, tokens := 0, wg := 0, waiters := 0, sema := 0 }

/-- The method `startWithToken` (lines 25-32), executed by call `t`: first
`s.wg.Add(1)`, then the `go` statement, which starts a worker running `f`; after
it the caller returns to its caller with `r`. -/
def startWithToken (c : Semaphore) (h : History) (t : Nat) (op : Op) (ctx : Option CtxErr)
    (r : Result) : StartPc → Outcome
  | .wgAdd =>
      match wgAdd c 1 with
      | .panic p => .panic p
      | .done c' =>
          .next ⟨c', { h with adds := h.adds + 1 }, .caller op ctx (.start .go), []⟩
      | .more c' q =>
          .next ⟨c', { h with adds := h.adds + 1 }, .caller op ctx (.start (.wgTail q)), []⟩
  | .wgTail q =>
      match wgTail c q with
      | .panic p => .panic p
      | .done c' => .next ⟨c', h, .caller op ctx (.start .go), []⟩
      | .more c' q' => .next ⟨c', h, .caller op ctx (.start (.wgTail q')), []⟩
  | .go => .next ⟨c, h, .caller op ctx (.returned r), [.worker t .f]⟩

/-- The token has been sent: record it and enter `startWithToken`. -/
def acquired (c : Semaphore) (h : History) (op : Op) (ctx : Option CtxErr) : Outcome :=
  .next ⟨c, { h with sends := h.sends + 1 }, .caller op ctx (.start .wgAdd), []⟩

/-- The method `Add` (lines 38-46) executed by goroutine `t`.  The `select` has
two cases: `<-ctx.Done()`, ready iff the context is done, which returns
`ctx.Err()`; and the send of a token, ready iff the buffer is not full.  After
the send, `startWithToken(f)` and `return nil`. -/
def Add (c : Semaphore) (h : History) (t : Nat) (ctx : Option CtxErr) :
    CallPc → Branch → Outcome
  | .acquire, .ctxDone =>
      match ctx with
      | some e => .next ⟨c, h, .caller .add ctx (.returned (.error (some e))), []⟩
      | none => .blocked
  | .acquire, .send =>
      match chanSend c with
      | some c' => acquired c' h .add ctx
      | none => .blocked
  | .start p, .next => startWithToken c h t .add ctx (.error none) p
  | _, _ => .blocked

/-- The method `TryAdd` (lines 50-58) executed by goroutine `t`.  The `select`
sends a token if that can proceed, and takes `default` (returning `false`)
only if it cannot.  After the send, `startWithToken(f)` and `return true`. -/
def TryAdd (c : Semaphore) (h : History) (t : Nat) (ctx : Option CtxErr) :
    CallPc → Branch → Outcome
  | .acquire, .send =>
      match chanSend c with
      | some c' => acquired c' h .tryAdd ctx
      | none => .blocked
  | .acquire, .dflt =>
      match chanSend c with
      | some _ => .blocked
      | none => .next ⟨c, h, .caller .tryAdd ctx (.returned (.bool false)), []⟩
  | .start p, .next => startWithToken c h t .tryAdd ctx (.bool true) p
  | _, _ => .blocked

/-- The method `MustAdd` (lines 61-64) executed by goroutine `t`: a plain send,
then `startWithToken(f)`. -/
def MustAdd (c : Semaphore) (h : History) (t : Nat) (ctx : Option CtxErr) :
    CallPc → Branch → Outcome
  | .acquire, .send =>
      match chanSend c with
      | some c' => acquired c' h .mustAdd ctx
      | none => .blocked
  | .start p, .next => startWithToken c h t .mustAdd ctx .unit p
  | _, _ => .blocked

/-- The method `Wait` (lines 67-71): the loop condition reads `len(s.tokens)`; if
it is zero the loop ends and `Wait` returns; if it is positive the body
`s.wg.Wait()` runs and the loop starts over.  Inside `s.wg.Wait()` the state is
read; with a zero counter the call returns; otherwise a compare-and-swap
registers the goroutine as a waiter (if the state has changed, the state is
read again), the goroutine sleeps until the semaphore is released, and once
woken it re-reads the state: the call panics unless the state is zero. -/
def Wait (c : Semaphore) (h : History) : WaitPc → Outcome
  | .check =>
      if 0 < c.tokens then .next ⟨c, h, .waiter .wgWait, []⟩
      else .next ⟨c, h, .waiter .returned, []⟩
  | .wgWait =>
      if c.wg = 0 then .next ⟨c, h, .waiter .check, []⟩
      else .next ⟨c, h, .waiter (.wgCas c.wg c.waiters), []⟩
  | .wgCas v w =>
      if c.wg = v ∧ c.waiters = w then
        .next ⟨{ c with waiters := c.waiters + 1 }, h, .waiter .wgPark, []⟩
      else .next ⟨c, h, .waiter .wgWait, []⟩
  | .wgPark =>
      if 0 < c.sema then .next ⟨{ c with sema := c.sema - 1 }, h, .waiter .wgWoken, []⟩
      else .blocked
  | .wgWoken =>
      if c.wg = 0 ∧ c.waiters = 0 then .next ⟨c, h, .waiter .check, []⟩
      else .panic .reusedBeforeWait
  | .returned => .blocked

/-- The function literal of the `go` statement (lines 27-31): `f()`, then
`<-s.tokens`, then `s.wg.Done()`, which is `s.wg.Add(-1)`. -/
def worker (c : Semaphore) (h : History) (owner : Nat) : WorkPc → Outcome
  | .f => .next ⟨c, h, .worker owner .release, []⟩
  | .release =>
      match chanRecv c with
      | some c' => .next ⟨c', { h with recvs := h.recvs + 1 }, .worker owner .wgDone, []⟩
      | none => .blocked
  | .wgDone =>
      match wgAdd c (-1) with
      | .panic p => .panic p
      | .done c' => .next ⟨c', { h with dones := h.dones + 1 }, .worker owner .exit, []⟩
      | .more c' q =>
          .next ⟨c', { h with dones := h.dones + 1 }, .worker owner (.wgTail q), []⟩
  | .wgTail q =>
      match wgTail c q with
      | .panic p => .panic p
      | .done c' => .next ⟨c', h, .worker owner .exit, []⟩
      | .more c' q' => .next ⟨c', h, .worker owner (.wgTail q'), []⟩
  | .exit => .blocked

/-- Goroutine `t` executes its next statement, taking branch `b`. -/
def runThread (s : State) (t : Nat) (b : Branch) : Outcome :=
  match s.threads[t]? with
  | some (.caller .add ctx pc) => Add s.sem s.hist t ctx pc b
  | some (.caller .tryAdd ctx pc) => TryAdd s.sem s.hist t ctx pc b
  | some (.caller .mustAdd ctx pc) => MustAdd s.sem s.hist t ctx pc b
  | some (.waiter pc) => if b = .next then Wait s.sem s.hist pc else .blocked
  | some (.worker owner pc) => if b = .next then worker s.sem s.hist owner pc else .blocked
  | none => .blocked

/-- Replace the thread at index `t`. -/
def State.setThread (s : State) (t : Nat) (th : Thread) : State :=
  { s with threads := s.threads.set t th }

/-- The state after goroutine `t` has executed a statement. -/
def State.moved (s : State) (t : Nat) (m : Moved) : State :=
  { sem := m.sem, threads := s.threads.set t m.self ++ m.started, hist := m.hist }

/-- On an unbuffered channel (`cap = 0`) a send proceeds only together
with a receive: the sender `t`, at its send, and the receiver `u`, at
`<-s.tokens`, both move on and the buffer stays empty. -/
def handoff (s : State) (t u : Nat) : Option State :=
  if s.sem.cap = 0 then
    match s.threads[t]?, s.threads[u]? with
    | some (.caller op ctx .acquire), some (.worker owner .release) =>
        some
          { sem := s.sem
            threads :=
              (s.threads.set t (.caller op ctx (.start .wgAdd))).set u (.worker owner .wgDone)
            hist := { s.hist with sends := s.hist.sends + 1, recvs := s.hist.recvs + 1 } }
    | _, _ => none
  else none

/-- The context of call `t` becomes done with error `e`; a context that is
done stays as it is. -/
def cancel (s : State) (t : Nat) (e : CtxErr) : Option State :=
  match s.threads[t]? with
  | some (.caller .add none pc) => some (s.setThread t (.caller .add (some e) pc))
  | _ => none

/-- The transition function: the next state, if the action is enabled and does
not panic. -/
def step (s : State) : Action → Option State
  | .call .add ctx => some { s with threads := s.threads ++ [.caller .add ctx .acquire] }
  | .call op _ => some { s with threads := s.threads ++ [.caller op none .acquire] }
  | .callWait => some { s with threads := s.threads ++ [.waiter .check] }
  | .cancel t e => cancel s t e
  | .run t b =>
      match runThread s t b with
      | .next m => some (s.moved t m)
      | _ => none
  | .handoff t u => handoff s t u

/-- The panic with which an action ends the program, if it does. -/
def panics (s : State) : Action → Option Panic
  | .run t b =>
      match runThread s t b with
      | .panic p => some p
      | _ => none
  | _ => none

/-- Run a list of actions; `none` if one of them is not enabled or panics. -/
def exec (s : State) : List Action → Option State
  | [] => some s
  | a :: as => (step s a).bind fun s' => exec s' as

/-- The state right after `New(n)`: no goroutine uses the semaphore yet. -/
def init (n : Int) : Option State :=
  (New n).map fun c => { sem := c, threads := [], hist := ⟨0, 0, 0, 0⟩ }

/-- The states some execution reaches from `New(n)`. -/
def Reachable (n : Int) (s : State) : Prop :=
  ∃ tr : List Action, (init n).bind (fun s0 => exec s0 tr) = some s

/-! ## Counting goroutines -/

/-- Sum of a weight over the threads. -/
def weigh (w : Thread → Nat) : List Thread → Nat
  | [] => 0
  | th :: l => w th + weigh w l

/-- The call is past the atomic addition of `s.wg.Add(1)` and has not yet
executed the `go` statement. -/
def CallPc.counted : CallPc → Bool
  | .start .go => true
  | .start (.wgTail _) => true
  | _ => false

/-- Calls that have sent their token and not yet executed `s.wg.Add(1)`. -/
def wAcq : Thread → Nat
  | .caller _ _ pc => if pc = .start .wgAdd then 1 else 0
  | _ => 0

/-- Calls that have executed the atomic addition of `s.wg.Add(1)` and not yet
the `go` statement. -/
def wGo : Thread → Nat
  | .caller _ _ pc => if pc.counted then 1 else 0
  | _ => 0

/-- A result that says "admitted": `nil` from `Add`, `true` from `TryAdd`,
or a return of `MustAdd`. -/
def Result.admitted : Result → Bool
  | .error none => true
  | .bool true => true
  | .unit => true
  | _ => false

/-- The call has returned "admitted". -/
def CallPc.admitted : CallPc → Bool
  | .returned r => r.admitted
  | _ => false

/-- Calls that have returned "admitted". -/
def wAdm : Thread → Nat
  | .caller _ _ pc => if pc.admitted then 1 else 0
  | _ => 0

/-- Workers whose `f` is running. -/
def wF : Thread → Nat
  | .worker _ pc => if pc = .f then 1 else 0
  | _ => 0

/-- Workers whose `f` has returned and that have not yet received a token. -/
def wRel : Thread → Nat
  | .worker _ pc => if pc = .release then 1 else 0
  | _ => 0

/-- Workers that have received a token and not yet executed `s.wg.Done()`. -/
def wDone : Thread → Nat
  | .worker _ pc => if pc = .wgDone then 1 else 0
  | _ => 0

/-- The worker is inside `s.wg.Done()`, after its atomic subtraction. -/
def WorkPc.inTail : WorkPc → Bool
  | .wgTail _ => true
  | _ => false

/-- Workers inside `s.wg.Done()`, after its atomic subtraction. -/
def wFin : Thread → Nat
  | .worker _ pc => if pc.inTail then 1 else 0
  | _ => 0

/-- Workers that have ended. -/
def wExit : Thread → Nat
  | .worker _ pc => if pc = .exit then 1 else 0
  | _ => 0

/-- The stored number of waiters of a goroutine that is inside `wg.Add` between
the atomic operation that brought the counter to zero and the reset. -/
def Thread.win : Thread → Option Nat
  | .caller _ _ (.start (.wgTail (.check w))) => some w
  | .caller _ _ (.start (.wgTail (.store w))) => some w
  | .worker _ (.wgTail (.check w)) => some w
  | .worker _ (.wgTail (.store w)) => some w
  | _ => none

/-- Goroutines inside `wg.Add` between the atomic operation that brought the
counter to zero and the reset. -/
def wWin (th : Thread) : Nat :=
  if th.win.isSome then 1 else 0

/-- Workers started by call `t`. -/
def wOwned (t : Nat) : Thread → Nat
  | .worker owner _ => if owner = t then 1 else 0
  | _ => 0

/-- What a returned call may hold as its result, by method: an `error` that
is `nil` or the error of its done context for `Add`, a `bool` for `TryAdd`,
nothing for `MustAdd`. -/
def Result.fits (r : Result) (ctx : Option CtxErr) : Op → Bool
  | .add => r = .error none || (ctx ≠ none && r = .error ctx)
  | .tryAdd => r = .bool true || r = .bool false
  | .mustAdd => r = .unit

/-- A returned call holds a result of its method, and a goroutine about to
register in `wg.Wait()` has read a counter that is not zero. -/
def threadOk : Thread → Bool
  | .caller op ctx (.returned r) => r.fits ctx op
  | .waiter (.wgCas v _) => v ≠ 0
  | _ => true

/-- The number of workers started by the thread `th`, if `th` is at index `t`:
one for a call that has returned "admitted", none otherwise. -/
def launched : Option Thread → Nat
  | some th => wAdm th
  | none => 0

/-- The arithmetic part of the invariant: how the channel length, the
`WaitGroup` counter and the history counters are made up of the goroutines at
each program point. -/
structure Counts (c : Semaphore) (h : History) (l : List Thread) : Prop where
  le_cap : c.tokens ≤ c.cap
  tokens_eq : c.tokens = weigh wAcq l + weigh wGo l + weigh wF l + weigh wRel l
  wg_eq : c.wg = ((weigh wGo l + weigh wF l + weigh wRel l + weigh wDone l : Nat) : Int)
  sends_eq : h.sends = weigh wAcq l + weigh wGo l + weigh wAdm l
  adm_eq : weigh wAdm l
    = weigh wF l + weigh wRel l + weigh wDone l + weigh wFin l + weigh wExit l
  recvs_eq : h.recvs = weigh wDone l + weigh wFin l + weigh wExit l
  adds_eq : h.adds = weigh wGo l + weigh wAdm l
  dones_eq : h.dones = weigh wFin l + weigh wExit l
  unbuffered : c.cap = 0 → h.sends = 0

/-- The part of the invariant on the reset of the `WaitGroup`: at most one
goroutine is between the atomic operation that brought the counter to zero and
the reset; while one is, the counter is zero and waiters are registered; and
waiters are registered only while the counter is not zero or a goroutine is
about to reset. -/
structure Window (c : Semaphore) (l : List Thread) : Prop where
  single : weigh wWin l ≤ 1
  win_zero : 0 < weigh wWin l → c.wg = 0 ∧ c.waiters ≠ 0
  waiters_win : c.waiters ≠ 0 → c.wg ≠ 0 ∨ weigh wWin l = 1

/-- Every thread is well formed. -/
def ThreadsOk (l : List Thread) : Prop :=
  ∀ (t : Nat) (th : Thread), l[t]? = some th → threadOk th = true

/-- Every call has started exactly the workers it should have. -/
def OwnedOk (l : List Thread) : Prop :=
  ∀ t : Nat, weigh (wOwned t) l = launched (l[t]?)

/-- A goroutine between the atomic operation that brought the counter to zero
and the reset has stored the current number of waiters. -/
def WinOk (c : Semaphore) (l : List Thread) : Prop :=
  ∀ (t : Nat) (th : Thread) (w : Nat), l[t]? = some th → th.win = some w → c.waiters = w

/-- The invariant of the system. -/
structure Inv (s : State) : Prop where
  counts : Counts s.sem s.hist s.threads
  window : Window s.sem s.threads
  threads : ThreadsOk s.threads
  owned : OwnedOk s.threads
  win : WinOk s.sem s.threads

/-! ## States after a whole call -/

/-- The result with which an admitted call returns. -/
def Op.admittedResult : Op → Result
  | .add => .error none
  | .tryAdd => .bool true
  | .mustAdd => .unit

/-- The state after call `t` has been admitted and has run to its return
without any other goroutine taking a step. -/
def admittedState (s : State) (t : Nat) (op : Op) (ctx : Option CtxErr) : State :=
  { sem := { s.sem with tokens := s.sem.tokens + 1, wg := s.sem.wg + 1 }
    threads := s.threads.set t (.caller op ctx (.returned op.admittedResult)) ++ [.worker t .f]
    hist := { s.hist with sends := s.hist.sends + 1, adds := s.hist.adds + 1 } }

/-- The state after worker `u` has received a token. -/
def releasedState (s : State) (u owner : Nat) : State :=
  { sem := { s.sem with tokens := s.sem.tokens - 1 }
    threads := s.threads.set u (.worker owner .wgDone)
    hist := { s.hist with recvs := s.hist.recvs + 1 } }

/-! ## Example executions -/

/-- Capacity 1; one `TryAdd` was admitted and its `f` is running. -/
def exFull : State :=
  { sem := { cap := 1, tokens := 1, wg := 1, waiters := 0, sema := 0 }
    threads := [.caller .tryAdd none (.returned (.bool true)), .worker 0 .f]
    hist := { sends := 1, recvs := 0, adds := 1, dones := 0 } }

/-- The execution that leads to `exFull`. -/
def trFull : List Action :=
  [.call .tryAdd none, .run 0 .send, .run 0 .next, .run 0 .next]

/-- Capacity 1; the admitted unit's `f` has returned (the worker is about to
release its token) and a second `TryAdd` has been called. -/
def exSignaled : State :=
  { sem := { cap := 1, tokens := 1, wg := 1, waiters := 0, sema := 0 }
    threads := [.caller .tryAdd none (.returned (.bool true)), .worker 0 .release,
      .caller .tryAdd none .acquire]
    hist := { sends := 1, recvs := 0, adds := 1, dones := 0 } }

/-- The execution that leads to `exSignaled`. -/
def trSignaled : List Action :=
  trFull ++ [.run 1 .next, .call .tryAdd none]

/-- Capacity 1, no token taken; an `Add` whose context is already done stands
at its `select`. -/
def exRace : State :=
  { sem := { cap := 1, tokens := 0, wg := 0, waiters := 0, sema := 0 }
    threads := [.caller .add (some .canceled) .acquire]
    hist := { sends := 0, recvs := 0, adds := 0, dones := 0 } }

/-- Capacity 1, saturated: one unit is admitted and running, and an `Add`
whose context is already done stands at its `select`. -/
def exSaturatedAdd : State :=
  { sem := { cap := 1, tokens := 1, wg := 1, waiters := 0, sema := 0 }
    threads := [.caller .tryAdd none (.returned (.bool true)), .worker 0 .f,
      .caller .add (some .deadlineExceeded) .acquire]
    hist := { sends := 1, recvs := 0, adds := 1, dones := 0 } }

/-- The execution that leads to `exSaturatedAdd`. -/
def trSaturatedAdd : List Action :=
  trFull ++ [.call .add (some .deadlineExceeded)]

/-- Capacity 1; the admitted unit has received its token and has not yet
executed `s.wg.Done()`; a goroutine has entered `Wait`. -/
def exDraining : State :=
  { sem := { cap := 1, tokens := 0, wg := 1, waiters := 0, sema := 0 }
    threads := [.caller .tryAdd none (.returned (.bool true)), .worker 0 .wgDone,
      .waiter .check]
    hist := { sends := 1, recvs := 1, adds := 1, dones := 0 } }

/-- The execution that leads to `exDraining`. -/
def trDraining : List Action :=
  trFull ++ [.run 1 .next, .run 1 .next, .callWait]

/-- Capacity 1; a `TryAdd` has sent its token and has not yet executed
`s.wg.Add(1)`. -/
def exAcquired : State :=
  { sem := { cap := 1, tokens := 1, wg := 0, waiters := 0, sema := 0 }
    threads := [.caller .tryAdd none (.start .wgAdd)]
    hist := { sends := 1, recvs := 0, adds := 0, dones := 0 } }

/-- The execution that leads to `exAcquired`. -/
def trAcquired : List Action :=
  [.call .tryAdd none, .run 0 .send]

/-- Capacity 0; a `TryAdd`, an `Add` with a done context, an `Add` with a
live context and a `MustAdd` have been called. -/
def exZero : State :=
  { sem := { cap := 0, tokens := 0, wg := 0, waiters := 0, sema := 0 }
    threads := [.caller .tryAdd none .acquire, .caller .add (some .canceled) .acquire,
      .caller .add none .acquire, .caller .mustAdd none .acquire]
    hist := { sends := 0, recvs := 0, adds := 0, dones := 0 } }

/-- The execution that leads to `exZero`. -/
def trZero : List Action :=
  [.call .tryAdd none, .call .add (some .canceled), .call .add none, .call .mustAdd none]

/-- The execution up to the point where a `Wait` sleeps in `s.wg.Wait()` and the
only admitted unit is inside `s.wg.Done()`: one `TryAdd` is admitted; a goroutine
calls `Wait`, finds a token, reads counter 1 and registers as a waiter; `f`
returns, the worker receives its token and executes the atomic subtraction
of `s.wg.Done()`, which brings the counter to zero with one waiter registered;
the worker has not yet reset the state. -/
def trWindow : List Action :=
  trFull ++ [.callWait, .run 2 .next, .run 2 .next, .run 2 .next,
    .run 1 .next, .run 1 .next, .run 1 .next]

/-- Capacity 1; after `trWindow`, an `Add` with a live context has been called
and has sent its token; it is about to execute `s.wg.Add(1)`. -/
def exDoomed : State :=
  { sem := { cap := 1, tokens := 1, wg := 0, waiters := 1, sema := 0 }
    threads := [.caller .tryAdd none (.returned (.bool true)),
      .worker 0 (.wgTail (.check 1)), .waiter .wgPark, .caller .add none (.start .wgAdd)]
    hist := { sends := 2, recvs := 1, adds := 1, dones := 1 } }

/-- The execution that leads to `exDoomed`. -/
def trDoomed : List Action :=
  trWindow ++ [.call .add none, .run 3 .send]

/-- Capacity 1; after `trWindow`, a `TryAdd` has been called and has sent its
token; it is about to execute `s.wg.Add(1)`. -/
def exDoomedTry : State :=
  { sem := { cap := 1, tokens := 1, wg := 0, waiters := 1, sema := 0 }
    threads := [.caller .tryAdd none (.returned (.bool true)),
      .worker 0 (.wgTail (.check 1)), .waiter .wgPark, .caller .tryAdd none (.start .wgAdd)]
    hist := { sends := 2, recvs := 1, adds := 1, dones := 1 } }

/-- The execution that leads to `exDoomedTry`. -/
def trDoomedTry : List Action :=
  trWindow ++ [.call .tryAdd none, .run 3 .send]

/-- Capacity 1; after `trWindow`, an `Add` whose context is done has been
called and stands at its `select`, with the slot free. -/
def exRaceWindow : State :=
  { sem := { cap := 1, tokens := 0, wg := 0, waiters := 1, sema := 0 }
    threads := [.caller .tryAdd none (.returned (.bool true)),
      .worker 0 (.wgTail (.check 1)), .waiter .wgPark,
      .caller .add (some .canceled) .acquire]
    hist := { sends := 1, recvs := 1, adds := 1, dones := 1 } }

/-- The execution that leads to `exRaceWindow`. -/
def trRaceWindow : List Action :=
  trWindow ++ [.call .add (some .canceled)]

/-! ## Lemmas on counting -/

theorem weigh_append (w : Thread → Nat) (l l' : List Thread) :
    weigh w (l ++ l') = weigh w l + weigh w l' := by
  induction l with
  | nil => simp [weigh]
  | cons a l ih => simp [weigh, ih, Nat.add_assoc]

theorem weigh_single (w : Thread → Nat) (l : List Thread) (a : Thread) :
    weigh w (l ++ [a]) = weigh w l + w a := by
  simp [weigh_append, weigh]

theorem weigh_set (w : Thread → Nat) :
    ∀ (l : List Thread) (i : Nat) (a b : Thread), l[i]? = some b →
      weigh w (l.set i a) + w b = weigh w l + w a := by
  intro l
  induction l with
  | nil => intro i a b h; simp at h
  | cons c l ih =>
    intro i a b h
    cases i with
    | zero =>
      simp at h
      subst h
      simp [weigh]
      omega
    | succ i =>
      simp at h
      have := ih i a b h
      simp [weigh]
      omega

theorem weigh_get_le (w : Thread → Nat) :
    ∀ (l : List Thread) (i : Nat) (b : Thread), l[i]? = some b → w b ≤ weigh w l := by
  intro l
  induction l with
  | nil => intro i b h; simp at h
  | cons c l ih =>
    intro i b h
    cases i with
    | zero =>
      simp at h
      subst h
      simp [weigh]
    | succ i =>
      simp at h
      have := ih i b h
      simp [weigh]
      omega

/-- A positive count has a thread that contributes to it. -/
theorem weigh_pos (w : Thread → Nat) :
    ∀ l : List Thread, 0 < weigh w l → ∃ (i : Nat) (th : Thread), l[i]? = some th ∧ 0 < w th := by
  intro l
  induction l with
  | nil => intro h; simp [weigh] at h
  | cons c l ih =>
    intro h
    by_cases hc : 0 < w c
    · exact ⟨0, c, by simp, hc⟩
    · have hl : 0 < weigh w l := by
        simp only [weigh] at h
        omega
      obtain ⟨i, th, hi, hth⟩ := ih hl
      exact ⟨i + 1, th, by simpa using hi, hth⟩

theorem lt_length_of_get {l : List Thread} {i : Nat} {b : Thread} (h : l[i]? = some b) :
    i < l.length := by
  rcases List.getElem?_eq_some.1 h with ⟨hlt, _⟩
  exact hlt

/-- All the counts move together when one thread is replaced. -/
theorem weigh_set_all {l : List Thread} {i : Nat} {b : Thread} (h : l[i]? = some b)
    (a : Thread) :
    weigh wAcq (l.set i a) + wAcq b = weigh wAcq l + wAcq a ∧
    weigh wGo (l.set i a) + wGo b = weigh wGo l + wGo a ∧
    weigh wAdm (l.set i a) + wAdm b = weigh wAdm l + wAdm a ∧
    weigh wF (l.set i a) + wF b = weigh wF l + wF a ∧
    weigh wRel (l.set i a) + wRel b = weigh wRel l + wRel a ∧
    weigh wDone (l.set i a) + wDone b = weigh wDone l + wDone a ∧
    weigh wFin (l.set i a) + wFin b = weigh wFin l + wFin a ∧
    weigh wExit (l.set i a) + wExit b = weigh wExit l + wExit a ∧
    weigh wWin (l.set i a) + wWin b = weigh wWin l + wWin a :=
  ⟨weigh_set _ l i a b h, weigh_set _ l i a b h, weigh_set _ l i a b h, weigh_set _ l i a b h,
    weigh_set _ l i a b h, weigh_set _ l i a b h, weigh_set _ l i a b h, weigh_set _ l i a b h,
    weigh_set _ l i a b h⟩

theorem threadsOk_set {l : List Thread} (hl : ThreadsOk l) (i : Nat) (a : Thread)
    (ha : threadOk a = true) : ThreadsOk (l.set i a) := by
  intro t th h
  rw [List.getElem?_set] at h
  split at h
  · split at h
    · cases h; exact ha
    · cases h
  · exact hl t th h

theorem threadsOk_single {l : List Thread} (hl : ThreadsOk l) (a : Thread)
    (ha : threadOk a = true) : ThreadsOk (l ++ [a]) := by
  intro t th h
  rcases Nat.lt_or_ge t l.length with ht | ht
  · rw [List.getElem?_append_left ht] at h
    exact hl t th h
  · rw [List.getElem?_append_right ht] at h
    cases hk : t - l.length with
    | zero => rw [hk] at h; simp at h; subst h; exact ha
    | succ k => rw [hk] at h; simp at h

theorem ownedOk_set {l : List Thread} (hl : OwnedOk l) {i : Nat} {a b : Thread}
    (h : l[i]? = some b) (hown : ∀ u, wOwned u a = wOwned u b) (hadm : wAdm a = wAdm b) :
    OwnedOk (l.set i a) := by
  intro u
  have e := weigh_set (wOwned u) l i a b h
  have hu := hl u
  rw [hown u] at e
  have e' : weigh (wOwned u) (l.set i a) = weigh (wOwned u) l := by omega
  rw [e', hu, List.getElem?_set]
  split
  · rename_i hiu
    subst hiu
    have hlt := lt_length_of_get h
    simp [hlt, h, launched, hadm]
  · rfl

theorem ownedOk_single {l : List Thread} (hl : OwnedOk l) (a : Thread)
    (hown : ∀ u, wOwned u a = 0) (hadm : wAdm a = 0) : OwnedOk (l ++ [a]) := by
  intro u
  rw [weigh_single, hown u, hl u]
  rcases Nat.lt_or_ge u l.length with ht | ht
  · rw [List.getElem?_append_left ht]; rfl
  · rw [List.getElem?_append_right ht]
    have hn : l[u]? = none := List.getElem?_eq_none ht
    rw [hn]
    cases hk : u - l.length with
    | zero => simp [launched, hadm]
    | succ k => simp [launched]

theorem ownedOk_go {l : List Thread} (hl : OwnedOk l) {t : Nat} {op : Op}
    {ctx : Option CtxErr} (hget : l[t]? = some (.caller op ctx (.start .go))) (r : Result)
    (hadm : r.admitted = true) :
    OwnedOk (l.set t (.caller op ctx (.returned r)) ++ [.worker t .f]) := by
  intro u
  have hlt := lt_length_of_get hget
  have e := weigh_set (wOwned u) l t (.caller op ctx (.returned r)) _ hget
  have hu := hl u
  simp only [wOwned] at e
  rw [weigh_single]
  rcases Nat.lt_or_ge u l.length with ht | ht
  · rw [List.getElem?_append_left (by simpa using ht), List.getElem?_set]
    by_cases htu : t = u
    · subst htu
      rw [hget] at hu
      simp [hlt, launched, wAdm, CallPc.admitted, hadm, wOwned] at hu ⊢
      omega
    · simp [htu, wOwned]
      omega
  · rw [List.getElem?_append_right (by simpa using ht)]
    have hn : l[u]? = none := List.getElem?_eq_none ht
    have htu : t ≠ u := by omega
    rw [hn] at hu
    cases hk : u - (l.set t (.caller op ctx (.returned r))).length with
    | zero => simp [launched, wAdm, wOwned, htu] at hu ⊢; omega
    | succ k => simp [launched, wOwned, htu] at hu ⊢; omega

/-- The stored numbers of waiters stay right when one thread is replaced and
the number of waiters is unchanged. -/
theorem winOk_set {c c' : Semaphore} {l : List Thread} (hl : WinOk c l) (i : Nat) (a : Thread)
    (hc : c'.waiters = c.waiters) (ha : ∀ w, a.win = some w → c'.waiters = w) :
    WinOk c' (l.set i a) := by
  intro t th w h hw
  rw [List.getElem?_set] at h
  split at h
  · split at h
    · cases h; exact ha w hw
    · cases h
  · rw [hc]; exact hl t th w h hw

/-- Nothing is to be shown when no goroutine has a number of waiters stored. -/
theorem winOk_of_zero (c : Semaphore) {l : List Thread} (hz : weigh wWin l = 0) :
    WinOk c l := by
  intro t th w h hw
  have hle := weigh_get_le wWin _ _ _ h
  simp [wWin, hw] at hle
  omega

theorem winOk_single {c : Semaphore} {l : List Thread} (hl : WinOk c l) (a : Thread)
    (ha : a.win = none) : WinOk c (l ++ [a]) := by
  intro t th w h hw
  rcases Nat.lt_or_ge t l.length with ht | ht
  · rw [List.getElem?_append_left ht] at h
    exact hl t th w h hw
  · rw [List.getElem?_append_right ht] at h
    cases hk : t - l.length with
    | zero => rw [hk] at h; simp at h; subst h; rw [ha] at hw; cases hw
    | succ k => rw [hk] at h; simp at h

/-! ## The `WaitGroup` operations, case by case -/

theorem wgAdd_done {c c' : Semaphore} {d : Int} (h : wgAdd c d = .done c') :
    c' = { c with wg := c.wg + d } ∧ 0 ≤ c.wg + d ∧
      ¬ (c.waiters ≠ 0 ∧ 0 < d ∧ c.wg + d = d) ∧ (0 < c.wg + d ∨ c.waiters = 0) := by
  unfold wgAdd at h
  split at h
  · cases h
  · split at h
    · cases h
    · split at h
      · cases h
        refine ⟨rfl, by omega, by assumption, by assumption⟩
      · cases h

theorem wgAdd_more {c c' : Semaphore} {d : Int} {q : WgPc} (h : wgAdd c d = .more c' q) :
    c' = { c with wg := c.wg + d } ∧ q = .check c.waiters ∧ c.wg + d = 0 ∧
      c.waiters ≠ 0 ∧ ¬ (0 < d ∧ c.wg + d = d) := by
  unfold wgAdd at h
  split at h
  · cases h
  · split at h
    · cases h
    · split at h
      · cases h
      · cases h
        rename_i h1 h2 h3
        refine ⟨rfl, rfl, by omega, by omega, ?_⟩
        intro h4
        exact h2 ⟨by omega, h4.1, h4.2⟩

/-- The outcomes of the rest of `wg.Add`. -/
theorem wgTail_cases {c : Semaphore} {q : WgPc} :
    (∃ w, q = .check w ∧ c.wg = 0 ∧ c.waiters = w ∧ wgTail c q = .more c (.store w)) ∨
    (∃ w, q = .check w ∧ ¬ (c.wg = 0 ∧ c.waiters = w) ∧
      wgTail c q = .panic .addDuringWait) ∨
    (q = .store 0 ∧ wgTail c q = .done { c with wg := 0, waiters := 0 }) ∨
    (∃ w, q = .store w ∧ w ≠ 0 ∧
      wgTail c q = .more { c with wg := 0, waiters := 0 } (.wake w)) ∨
    (∃ k, q = .wake k ∧ k ≤ 1 ∧ wgTail c q = .done { c with sema := c.sema + 1 }) ∨
    (∃ k, q = .wake k ∧ ¬ k ≤ 1 ∧
      wgTail c q = .more { c with sema := c.sema + 1 } (.wake (k - 1))) := by
  cases q with
  | check w =>
    by_cases h : c.wg = 0 ∧ c.waiters = w
    · exact Or.inl ⟨w, rfl, h.1, h.2, by simp [wgTail, h]⟩
    · exact Or.inr (Or.inl ⟨w, rfl, h, by simp only [wgTail, if_neg h]⟩)
  | store w =>
    by_cases h : w = 0
    · subst h
      exact Or.inr (Or.inr (Or.inl ⟨rfl, by simp [wgTail]⟩))
    · exact Or.inr (Or.inr (Or.inr (Or.inl ⟨w, rfl, h, by simp [wgTail, h]⟩)))
  | wake k =>
    by_cases h : k ≤ 1
    · exact Or.inr (Or.inr (Or.inr (Or.inr (Or.inl ⟨k, rfl, h, by simp [wgTail, h]⟩))))
    · exact Or.inr (Or.inr (Or.inr (Or.inr (Or.inr ⟨k, rfl, h, by simp [wgTail, h]⟩))))

/-! ## The invariant is inductive -/

theorem window_same {c c' : Semaphore} {l l' : List Thread} (h : Window c l)
    (hwg : c'.wg = c.wg) (hwt : c'.waiters = c.waiters)
    (hw : weigh wWin l' = weigh wWin l) : Window c' l' := by
  obtain ⟨w1, w2, w3⟩ := h
  refine ⟨?_, ?_, ?_⟩
  · rw [hw]; exact w1
  · rw [hw, hwg, hwt]; exact w2
  · rw [hw, hwg, hwt]; exact w3

theorem inv_fork {s : State} (hi : Inv s) (th : Thread)
    (h1 : wAcq th = 0) (h2 : wGo th = 0) (h3 : wAdm th = 0) (h4 : wF th = 0)
    (h5 : wRel th = 0) (h6 : wDone th = 0) (h7 : wFin th = 0) (h8 : wExit th = 0)
    (h9 : wWin th = 0) (h10 : ∀ u, wOwned u th = 0) (h11 : threadOk th = true)
    (h12 : th.win = none) :
    Inv { s with threads := s.threads ++ [th] } := by
  obtain ⟨⟨c1, c2, c3, c4, c5, c6, c7, c8, c9⟩, hwd, hr, ho, hw⟩ := hi
  refine ⟨⟨?_, ?_, ?_, ?_, ?_, ?_, ?_, ?_, ?_⟩,
    window_same hwd rfl rfl (by rw [weigh_single, h9]; rfl), threadsOk_single hr th h11,
    ownedOk_single ho th h10 h3, winOk_single hw th h12⟩ <;>
    simp only [weigh_single, h1, h2, h3, h4, h5, h6, h7, h8, h9, Nat.add_zero] <;> assumption

theorem inv_cancel {s s' : State} {t : Nat} {e : CtxErr} (hi : Inv s)
    (h : cancel s t e = some s') : Inv s' := by
  unfold cancel at h
  split at h
  · rename_i pc hget
    cases h
    obtain ⟨⟨c1, c2, c3, c4, c5, c6, c7, c8, c9⟩, hwd, hr, ho, hw⟩ := hi
    obtain ⟨e1, e2, e3, e4, e5, e6, e7, e8, e9⟩ := weigh_set_all hget (.caller .add (some e) pc)
    have hr0 := hr t _ hget
    have hwin : (Thread.caller .add (some e) pc).win = (Thread.caller .add none pc).win := by
      cases pc with
      | acquire => rfl
      | returned r => rfl
      | start p =>
        cases p with
        | wgAdd => rfl
        | go => rfl
        | wgTail q => cases q <;> rfl
    simp only [wAcq, wGo, wAdm, wF, wRel, wDone, wFin, wExit, wWin, hwin]
      at e1 e2 e3 e4 e5 e6 e7 e8 e9
    refine ⟨⟨?_, ?_, ?_, ?_, ?_, ?_, ?_, ?_, ?_⟩,
      window_same hwd rfl rfl (by simp only [State.setThread]; omega),
      threadsOk_set hr t _ ?r, ownedOk_set ho hget ?o1 ?o2, winOk_set hw t _ rfl ?w⟩
    case r => cases pc <;> simp_all [threadOk, Result.fits]
    case o1 => intro u; rfl
    case o2 => rfl
    case w =>
      intro w hww
      rw [hwin] at hww
      exact hw t _ w hget hww
    all_goals simp only [State.setThread]
    all_goals omega
  · cases h

/-- The counts after one thread is replaced, from how the weights of the
thread and the counters have changed. -/
theorem counts_set {c : Semaphore} {h : History} {l : List Thread} (hc : Counts c h l)
    {t : Nat} {old : Thread} (hget : l[t]? = some old) (new : Thread) (c' : Semaphore)
    (h' : History) (hcap : c'.tokens ≤ c'.cap) (hu : c'.cap = 0 → h'.sends = 0)
    (hd : c'.tokens + (wAcq old + wGo old + wF old + wRel old)
        = c.tokens + (wAcq new + wGo new + wF new + wRel new) ∧
      c'.wg + ((wGo old + wF old + wRel old + wDone old : Nat) : Int)
        = c.wg + ((wGo new + wF new + wRel new + wDone new : Nat) : Int) ∧
      h'.sends + (wAcq old + wGo old + wAdm old)
        = h.sends + (wAcq new + wGo new + wAdm new) ∧
      wAdm new + (wF old + wRel old + wDone old + wFin old + wExit old)
        = wAdm old + (wF new + wRel new + wDone new + wFin new + wExit new) ∧
      h'.recvs + (wDone old + wFin old + wExit old)
        = h.recvs + (wDone new + wFin new + wExit new) ∧
      h'.adds + (wGo old + wAdm old) = h.adds + (wGo new + wAdm new) ∧
      h'.dones + (wFin old + wExit old) = h.dones + (wFin new + wExit new)) :
    Counts c' h' (l.set t new) := by
  obtain ⟨c1, c2, c3, c4, c5, c6, c7, c8, c9⟩ := hc
  obtain ⟨ht, hwg, hs, ha, hr, had, hdn⟩ := hd
  obtain ⟨e1, e2, e3, e4, e5, e6, e7, e8, _⟩ := weigh_set_all hget new
  refine ⟨hcap, ?_, ?_, ?_, ?_, ?_, ?_, ?_, hu⟩ <;> omega

/-- The window part after one thread is replaced. -/
theorem window_set {l : List Thread} {t : Nat}
    {old : Thread} (hget : l[t]? = some old) (new : Thread) (c' : Semaphore)
    (h1 : weigh wWin l + wWin new ≤ 1 + wWin old)
    (h2 : wWin old < weigh wWin l + wWin new → c'.wg = 0 ∧ c'.waiters ≠ 0)
    (h3 : c'.waiters ≠ 0 → c'.wg ≠ 0 ∨ weigh wWin l + wWin new = 1 + wWin old) :
    Window c' (l.set t new) := by
  have e := weigh_set wWin l t new old hget
  refine ⟨?_, ?_, ?_⟩
  · omega
  · intro h
    exact h2 (by omega)
  · intro h
    rcases h3 h with h4 | h4
    · exact Or.inl h4
    · exact Or.inr (by omega)

/-- The window part after a thread is replaced by one with the same weight,
the counter and the number of waiters staying as they are. -/
theorem window_keep {c : Semaphore} {l : List Thread} (hw : Window c l) {t : Nat}
    {old : Thread} (hget : l[t]? = some old) (new : Thread) (c' : Semaphore)
    (hwg : c'.wg = c.wg) (hwt : c'.waiters = c.waiters) (hww : wWin new = wWin old) :
    Window c' (l.set t new) := by
  have e := weigh_set wWin l t new old hget
  exact window_same hw hwg hwt (by omega)

/-- The invariant after a statement that starts no goroutine. -/
theorem inv_set {s : State} {t : Nat} {old new : Thread} {c : Semaphore} {h : History}
    (hi : Inv s) (hget : s.threads[t]? = some old)
    (hc : Counts c h (s.threads.set t new)) (hwd : Window c (s.threads.set t new))
    (hok : threadOk new = true)
    (hown : ∀ u, wOwned u new = wOwned u old) (hadm : wAdm new = wAdm old)
    (hwin : WinOk c (s.threads.set t new)) :
    Inv (s.moved t ⟨c, h, new, []⟩) := by
  simp only [State.moved, List.append_nil]
  exact ⟨hc, hwd, threadsOk_set hi.threads t new hok, ownedOk_set hi.owned hget hown hadm,
    hwin⟩

theorem inv_acquired {s : State} {c : Semaphore} {t : Nat} {op : Op} {ctx : Option CtxErr}
    (hi : Inv s) (hget : s.threads[t]? = some (.caller op ctx .acquire))
    (hc : chanSend s.sem = some c) :
    Inv (s.moved t ⟨c, { s.hist with sends := s.hist.sends + 1 },
      .caller op ctx (.start .wgAdd), []⟩) := by
  unfold chanSend at hc
  split at hc
  · rename_i hfree
    cases hc
    exact @inv_set s t _ (.caller op ctx (.start .wgAdd))
      ({ s.sem with tokens := s.sem.tokens + 1 })
      ({ s.hist with sends := s.hist.sends + 1 }) hi hget
      (counts_set hi.counts hget _ _ _
        (Nat.succ_le_of_lt hfree)
        (fun h0 => by dsimp only at h0; omega)
        (by
          simp [wAcq, wGo, CallPc.counted, wAdm, CallPc.admitted, wF, wRel, wDone, wFin,
            WorkPc.inTail, wExit]
          try omega))
      (window_keep hi.window hget _ _ rfl rfl rfl)
      rfl (fun u => rfl) rfl
      (winOk_set hi.win t _ rfl (fun w hww => by cases hww))
  · cases hc

theorem inv_ret {s : State} {t : Nat} {op : Op} {ctx : Option CtxErr} {r : Result}
    (hi : Inv s) (hget : s.threads[t]? = some (.caller op ctx .acquire))
    (hadm : r.admitted = false) (hres : r.fits ctx op = true) :
    Inv (s.moved t ⟨s.sem, s.hist, .caller op ctx (.returned r), []⟩) := by
  exact @inv_set s t _ (.caller op ctx (.returned r))
    (s.sem)
    (s.hist) hi hget
    (counts_set hi.counts hget _ _ _
      (hi.counts.le_cap)
      (hi.counts.unbuffered)
      (by
        simp [wAcq, wGo, CallPc.counted, wAdm, CallPc.admitted, wF, wRel, wDone, wFin,
          WorkPc.inTail, wExit, hadm]
        try omega))
    (window_keep hi.window hget _ _ rfl rfl rfl)
    hres (fun u => rfl) (by simp [wAdm, CallPc.admitted, hadm])
    (winOk_set hi.win t _ rfl (fun w hww => by cases hww))

theorem inv_start_add {s : State} {t : Nat} {op : Op} {ctx : Option CtxErr}
    {m : Moved} {r : Result} (hi : Inv s)
    (hget : s.threads[t]? = some (.caller op ctx (.start .wgAdd)))
    (h : startWithToken s.sem s.hist t op ctx r .wgAdd = .next m) : Inv (s.moved t m) := by
  simp only [startWithToken] at h
  have c3 := hi.counts.wg_eq
  obtain ⟨w1, w2, w3⟩ := hi.window
  cases hq : wgAdd s.sem 1 with
  | panic p => rw [hq] at h; cases h
  | done c' =>
    rw [hq] at h
    cases h
    obtain ⟨rfl, k1, k2, k3⟩ := wgAdd_done hq
    exact @inv_set s t _ (.caller op ctx (.start .go))
      ({ s.sem with wg := s.sem.wg + 1 })
      ({ s.hist with adds := s.hist.adds + 1 }) hi hget
      (counts_set hi.counts hget _ _ _
        (hi.counts.le_cap)
        (hi.counts.unbuffered)
        (by
          simp [wAcq, wGo, CallPc.counted, wAdm, CallPc.admitted, wF, wRel, wDone, wFin,
            WorkPc.inTail, wExit]
          try omega))
      (window_set hget _ _
        (by simp [wWin, Thread.win]; omega)
        (by simp [wWin, Thread.win]; omega)
        (by simp [wWin, Thread.win]; omega))
      rfl (fun u => rfl) rfl
      (winOk_set hi.win t _ rfl (fun w hww => by cases hww))
  | more c' q =>
    exfalso
    obtain ⟨_, _, k1, _, _⟩ := wgAdd_more hq
    omega

theorem inv_start_tail {s : State} {t : Nat} {op : Op} {ctx : Option CtxErr} {q : WgPc}
    {m : Moved} {r : Result} (hi : Inv s)
    (hget : s.threads[t]? = some (.caller op ctx (.start (.wgTail q))))
    (h : startWithToken s.sem s.hist t op ctx r (.wgTail q) = .next m) : Inv (s.moved t m) := by
  simp only [startWithToken] at h
  obtain ⟨w1, w2, w3⟩ := hi.window
  have hown := weigh_get_le wWin _ _ _ hget
  rcases @wgTail_cases s.sem q with
    ⟨w, rfl, k1, k2, hq⟩ | ⟨w, rfl, k1, hq⟩ | ⟨rfl, hq⟩ | ⟨w, rfl, k1, hq⟩ |
    ⟨k, rfl, k1, hq⟩ | ⟨k, rfl, k1, hq⟩
  · rw [hq] at h
    cases h
    exact @inv_set s t _ (.caller op ctx (.start (.wgTail (.store w))))
      (s.sem)
      (s.hist) hi hget
      (counts_set hi.counts hget _ _ _
        (hi.counts.le_cap)
        (hi.counts.unbuffered)
        (by
          simp [wAcq, wGo, CallPc.counted, wAdm, CallPc.admitted, wF, wRel, wDone, wFin,
            WorkPc.inTail, wExit]
          try omega))
      (window_keep hi.window hget _ _ rfl rfl rfl)
      rfl (fun u => rfl) rfl
      (winOk_set hi.win t _ rfl (fun w' hww => by cases hww; exact k2))
  · rw [hq] at h
    cases h
  · rw [hq] at h
    cases h
    simp [wWin, Thread.win] at hown
    have hwg0 : s.sem.wg = 0 := (w2 (by omega)).1
    exact @inv_set s t _ (.caller op ctx (.start .go))
      ({ s.sem with wg := 0, waiters := 0 })
      (s.hist) hi hget
      (counts_set hi.counts hget _ _ _
        (hi.counts.le_cap)
        (hi.counts.unbuffered)
        (by
          simp [wAcq, wGo, CallPc.counted, wAdm, CallPc.admitted, wF, wRel, wDone, wFin,
            WorkPc.inTail, wExit]
          try omega))
      (window_set hget _ _
        (by simp [wWin, Thread.win]; omega)
        (by simp [wWin, Thread.win]; omega)
        (by simp [wWin, Thread.win]))
      rfl (fun u => rfl) rfl
      (winOk_of_zero _
        (by
          have e := weigh_set wWin _ t (.caller op ctx (.start .go)) _ hget
          simp [wWin, Thread.win] at e
          omega))
  · rw [hq] at h
    cases h
    simp [wWin, Thread.win] at hown
    have hwg0 : s.sem.wg = 0 := (w2 (by omega)).1
    exact @inv_set s t _ (.caller op ctx (.start (.wgTail (.wake w))))
      ({ s.sem with wg := 0, waiters := 0 })
      (s.hist) hi hget
      (counts_set hi.counts hget _ _ _
        (hi.counts.le_cap)
        (hi.counts.unbuffered)
        (by
          simp [wAcq, wGo, CallPc.counted, wAdm, CallPc.admitted, wF, wRel, wDone, wFin,
            WorkPc.inTail, wExit]
          try omega))
      (window_set hget _ _
        (by simp [wWin, Thread.win]; omega)
        (by simp [wWin, Thread.win]; omega)
        (by simp [wWin, Thread.win]))
      rfl (fun u => rfl) rfl
      (winOk_of_zero _
        (by
          have e := weigh_set wWin _ t (.caller op ctx (.start (.wgTail (.wake w)))) _ hget
          simp [wWin, Thread.win] at e
          omega))
  · rw [hq] at h
    cases h
    exact @inv_set s t _ (.caller op ctx (.start .go))
      ({ s.sem with sema := s.sem.sema + 1 })
      (s.hist) hi hget
      (counts_set hi.counts hget _ _ _
        (hi.counts.le_cap)
        (hi.counts.unbuffered)
        (by
          simp [wAcq, wGo, CallPc.counted, wAdm, CallPc.admitted, wF, wRel, wDone, wFin,
            WorkPc.inTail, wExit]
          try omega))
      (window_keep hi.window hget _ _ rfl rfl rfl)
      rfl (fun u => rfl) rfl
      (winOk_set hi.win t _ rfl (fun w hww => by cases hww))
  · rw [hq] at h
    cases h
    exact @inv_set s t _ (.caller op ctx (.start (.wgTail (.wake (k - 1)))))
      ({ s.sem with sema := s.sem.sema + 1 })
      (s.hist) hi hget
      (counts_set hi.counts hget _ _ _
        (hi.counts.le_cap)
        (hi.counts.unbuffered)
        (by
          simp [wAcq, wGo, CallPc.counted, wAdm, CallPc.admitted, wF, wRel, wDone, wFin,
            WorkPc.inTail, wExit]
          try omega))
      (window_keep hi.window hget _ _ rfl rfl rfl)
      rfl (fun u => rfl) rfl
      (winOk_set hi.win t _ rfl (fun w hww => by cases hww))

theorem inv_start_go {s : State} {t : Nat} {op : Op} {ctx : Option CtxErr}
    {m : Moved} {r : Result} (hi : Inv s)
    (hget : s.threads[t]? = some (.caller op ctx (.start .go)))
    (hadm : r.admitted = true) (hres : r.fits ctx op = true)
    (h : startWithToken s.sem s.hist t op ctx r .go = .next m) : Inv (s.moved t m) := by
  obtain ⟨⟨c1, c2, c3, c4, c5, c6, c7, c8, c9⟩, hwd, hr, ho, hw⟩ := id hi
  simp only [startWithToken] at h
  cases h
  obtain ⟨e1, e2, e3, e4, e5, e6, e7, e8, e9⟩ :=
    weigh_set_all hget (.caller op ctx (.returned r))
  simp [wAcq, wGo, CallPc.counted, wAdm, CallPc.admitted, hadm, wF, wRel, wDone, wFin, wExit,
    wWin, Thread.win] at e1 e2 e3 e4 e5 e6 e7 e8 e9
  have hwin : WinOk s.sem (s.threads.set t (.caller op ctx (.returned r)) ++ [.worker t .f]) :=
    winOk_single (winOk_set hw t _ rfl (fun w hww => by cases hww)) _ rfl
  have hwindow : Window s.sem
      (s.threads.set t (.caller op ctx (.returned r)) ++ [.worker t .f]) :=
    window_same hwd rfl rfl (by
      rw [weigh_single]
      simp only [wWin, Thread.win, Option.isSome_none, Bool.false_eq_true, if_false]
      omega)
  refine ⟨⟨?_, ?_, ?_, ?_, ?_, ?_, ?_, ?_, ?_⟩, hwindow,
    threadsOk_single (threadsOk_set hr t (.caller op ctx (.returned r)) hres) _ rfl,
    ownedOk_go ho hget r hadm, hwin⟩
  all_goals clear hwindow hwd e9 hwin
  all_goals
    simp [State.moved, weigh_single, wAcq, wGo, wAdm, wF, wRel, wDone, wFin, WorkPc.inTail,
      wExit]
  all_goals omega

theorem inv_start {s : State} {t : Nat} {op : Op} {ctx : Option CtxErr} {p : StartPc}
    {r : Result} {m : Moved} (hi : Inv s)
    (hget : s.threads[t]? = some (.caller op ctx (.start p)))
    (hadm : r.admitted = true) (hres : r.fits ctx op = true)
    (h : startWithToken s.sem s.hist t op ctx r p = .next m) : Inv (s.moved t m) := by
  cases p with
  | wgAdd => exact inv_start_add hi hget h
  | wgTail q => exact inv_start_tail hi hget h
  | go => exact inv_start_go hi hget hadm hres h

theorem inv_wait_same {s : State} {t : Nat} {pc : WaitPc} (hi : Inv s)
    (hget : s.threads[t]? = some (.waiter pc)) (pc' : WaitPc)
    (hok : threadOk (.waiter pc') = true) :
    Inv (s.moved t ⟨s.sem, s.hist, .waiter pc', []⟩) := by
  exact @inv_set s t _ (.waiter pc')
    (s.sem)
    (s.hist) hi hget
    (counts_set hi.counts hget _ _ _
      (hi.counts.le_cap)
      (hi.counts.unbuffered)
      (by
        simp [wAcq, wGo, CallPc.counted, wAdm, CallPc.admitted, wF, wRel, wDone, wFin,
          WorkPc.inTail, wExit]
        try omega))
    (window_keep hi.window hget _ _ rfl rfl rfl)
    hok (fun u => rfl) rfl
    (winOk_set hi.win t _ rfl (fun w hww => by cases hww))

theorem inv_wait {s : State} {t : Nat} {pc : WaitPc} {m : Moved} (hi : Inv s)
    (hget : s.threads[t]? = some (.waiter pc)) (h : Wait s.sem s.hist pc = .next m) :
    Inv (s.moved t m) := by
  have hok := hi.threads t _ hget
  cases pc with
  | check =>
    simp only [Wait] at h
    split at h <;> cases h <;> exact inv_wait_same hi hget _ rfl
  | wgWait =>
    simp only [Wait] at h
    split at h
    · cases h; exact inv_wait_same hi hget _ rfl
    · rename_i hne
      cases h
      exact inv_wait_same hi hget _ (by simpa [threadOk] using hne)
  | wgCas v w =>
    simp only [Wait] at h
    split at h
    · rename_i hcas
      cases h
      have hv : v ≠ 0 := by simpa [threadOk] using hok
      obtain ⟨w1, w2, w3⟩ := hi.window
      have hz : weigh wWin s.threads = 0 := by
        by_contra hpos
        have := (w2 (by omega)).1
        omega
      exact @inv_set s t _ (.waiter .wgPark)
        ({ s.sem with waiters := s.sem.waiters + 1 })
        (s.hist) hi hget
        (counts_set hi.counts hget _ _ _
          (hi.counts.le_cap)
          (hi.counts.unbuffered)
          (by
            simp [wAcq, wGo, CallPc.counted, wAdm, CallPc.admitted, wF, wRel, wDone, wFin,
              WorkPc.inTail, wExit]
            try omega))
        (window_set hget _ _
          (by simp [wWin, Thread.win]; omega)
          (by simp [wWin, Thread.win]; omega)
          (by simp [wWin, Thread.win]; omega))
        rfl (fun u => rfl) rfl
        (winOk_of_zero _
          (by
            have e := weigh_set wWin _ t (.waiter .wgPark) _ hget
            simp [wWin, Thread.win] at e
            omega))
    · cases h; exact inv_wait_same hi hget _ rfl
  | wgPark =>
    simp only [Wait] at h
    split at h
    · cases h
      exact @inv_set s t _ (.waiter .wgWoken)
        ({ s.sem with sema := s.sem.sema - 1 })
        (s.hist) hi hget
        (counts_set hi.counts hget _ _ _
          (hi.counts.le_cap)
          (hi.counts.unbuffered)
          (by
            simp [wAcq, wGo, CallPc.counted, wAdm, CallPc.admitted, wF, wRel, wDone, wFin,
              WorkPc.inTail, wExit]
            try omega))
        (window_keep hi.window hget _ _ rfl rfl rfl)
        rfl (fun u => rfl) rfl
        (winOk_set hi.win t _ rfl (fun w hww => by cases hww))
    · cases h
  | wgWoken =>
    simp only [Wait] at h
    split at h
    · cases h; exact inv_wait_same hi hget _ rfl
    · cases h
  | returned => simp [Wait] at h

theorem inv_worker_simple {s : State} {t owner : Nat} {pc : WorkPc} {m : Moved} (hi : Inv s)
    (hget : s.threads[t]? = some (.worker owner pc)) (hpc : pc = .f ∨ pc = .release)
    (h : worker s.sem s.hist owner pc = .next m) : Inv (s.moved t m) := by
  rcases hpc with rfl | rfl
  · simp only [worker] at h
    cases h
    exact @inv_set s t _ (.worker owner .release)
      (s.sem)
      (s.hist) hi hget
      (counts_set hi.counts hget _ _ _
        (hi.counts.le_cap)
        (hi.counts.unbuffered)
        (by
          simp [wAcq, wGo, CallPc.counted, wAdm, CallPc.admitted, wF, wRel, wDone, wFin,
            WorkPc.inTail, wExit]
          try omega))
      (window_keep hi.window hget _ _ rfl rfl rfl)
      rfl (fun u => rfl) rfl
      (winOk_set hi.win t _ rfl (fun w hww => by cases hww))
  · simp only [worker, chanRecv] at h
    split at h
    · rename_i c' hc
      split at hc
      · rename_i hpos
        cases hc
        cases h
        have c1 := hi.counts.le_cap
        exact @inv_set s t _ (.worker owner .wgDone)
          ({ s.sem with tokens := s.sem.tokens - 1 })
          ({ s.hist with recvs := s.hist.recvs + 1 }) hi hget
          (counts_set hi.counts hget _ _ _
            (Nat.le_trans (Nat.sub_le _ _) hi.counts.le_cap)
            (hi.counts.unbuffered)
            (by
              simp [wAcq, wGo, CallPc.counted, wAdm, CallPc.admitted, wF, wRel, wDone, wFin,
                WorkPc.inTail, wExit]
              try omega))
          (window_keep hi.window hget _ _ rfl rfl rfl)
          rfl (fun u => rfl) rfl
          (winOk_set hi.win t _ rfl (fun w hww => by cases hww))
      · cases hc
    · cases h

theorem inv_worker_done {s : State} {t owner : Nat} {m : Moved} (hi : Inv s)
    (hget : s.threads[t]? = some (.worker owner .wgDone))
    (h : worker s.sem s.hist owner .wgDone = .next m) : Inv (s.moved t m) := by
  simp only [worker] at h
  have hD := weigh_get_le wDone _ _ _ hget
  simp only [wDone, if_true] at hD
  have c3 := hi.counts.wg_eq
  obtain ⟨w1, w2, w3⟩ := hi.window
  cases hq : wgAdd s.sem (-1) with
  | panic p => rw [hq] at h; cases h
  | done c' =>
    rw [hq] at h
    cases h
    obtain ⟨rfl, k1, k2, k3⟩ := wgAdd_done hq
    exact @inv_set s t _ (.worker owner .exit)
      ({ s.sem with wg := s.sem.wg + -1 })
      ({ s.hist with dones := s.hist.dones + 1 }) hi hget
      (counts_set hi.counts hget _ _ _
        (hi.counts.le_cap)
        (hi.counts.unbuffered)
        (by
          simp [wAcq, wGo, CallPc.counted, wAdm, CallPc.admitted, wF, wRel, wDone, wFin,
            WorkPc.inTail, wExit]
          try omega))
      (window_set hget _ _
        (by simp [wWin, Thread.win]; omega)
        (by simp [wWin, Thread.win]; omega)
        (by simp [wWin, Thread.win]; omega))
      rfl (fun u => rfl) rfl
      (winOk_set hi.win t _ rfl (fun w hww => by cases hww))
  | more c' q =>
    rw [hq] at h
    cases h
    obtain ⟨rfl, rfl, k1, k2, k3⟩ := wgAdd_more hq
    exact @inv_set s t _ (.worker owner (.wgTail (.check s.sem.waiters)))
      ({ s.sem with wg := s.sem.wg + -1 })
      ({ s.hist with dones := s.hist.dones + 1 }) hi hget
      (counts_set hi.counts hget _ _ _
        (hi.counts.le_cap)
        (hi.counts.unbuffered)
        (by
          simp [wAcq, wGo, CallPc.counted, wAdm, CallPc.admitted, wF, wRel, wDone, wFin,
            WorkPc.inTail, wExit]
          try omega))
      (window_set hget _ _
        (by simp [wWin, Thread.win]; omega)
        (by simp [wWin, Thread.win]; omega)
        (by simp [wWin, Thread.win]; omega))
      rfl (fun u => rfl) rfl
      (winOk_set hi.win t _ rfl (fun w hww => by cases hww; rfl))

theorem inv_worker_tail {s : State} {t owner : Nat} {q : WgPc} {m : Moved} (hi : Inv s)
    (hget : s.threads[t]? = some (.worker owner (.wgTail q)))
    (h : worker s.sem s.hist owner (.wgTail q) = .next m) : Inv (s.moved t m) := by
  simp only [worker] at h
  obtain ⟨w1, w2, w3⟩ := hi.window
  have hown := weigh_get_le wWin _ _ _ hget
  rcases @wgTail_cases s.sem q with
    ⟨w, rfl, k1, k2, hq⟩ | ⟨w, rfl, k1, hq⟩ | ⟨rfl, hq⟩ | ⟨w, rfl, k1, hq⟩ |
    ⟨k, rfl, k1, hq⟩ | ⟨k, rfl, k1, hq⟩
  · rw [hq] at h
    cases h
    exact @inv_set s t _ (.worker owner (.wgTail (.store w)))
      (s.sem)
      (s.hist) hi hget
      (counts_set hi.counts hget _ _ _
        (hi.counts.le_cap)
        (hi.counts.unbuffered)
        (by
          simp [wAcq, wGo, CallPc.counted, wAdm, CallPc.admitted, wF, wRel, wDone, wFin,
            WorkPc.inTail, wExit]
          try omega))
      (window_keep hi.window hget _ _ rfl rfl rfl)
      rfl (fun u => rfl) rfl
      (winOk_set hi.win t _ rfl (fun w' hww => by cases hww; exact k2))
  · rw [hq] at h
    cases h
  · rw [hq] at h
    cases h
    simp [wWin, Thread.win] at hown
    have hwg0 : s.sem.wg = 0 := (w2 (by omega)).1
    exact @inv_set s t _ (.worker owner .exit)
      ({ s.sem with wg := 0, waiters := 0 })
      (s.hist) hi hget
      (counts_set hi.counts hget _ _ _
        (hi.counts.le_cap)
        (hi.counts.unbuffered)
        (by
          simp [wAcq, wGo, CallPc.counted, wAdm, CallPc.admitted, wF, wRel, wDone, wFin,
            WorkPc.inTail, wExit]
          try omega))
      (window_set hget _ _
        (by simp [wWin, Thread.win]; omega)
        (by simp [wWin, Thread.win]; omega)
        (by simp [wWin, Thread.win]))
      rfl (fun u => rfl) rfl
      (winOk_of_zero _
        (by
          have e := weigh_set wWin _ t (.worker owner .exit) _ hget
          simp [wWin, Thread.win] at e
          omega))
  · rw [hq] at h
    cases h
    simp [wWin, Thread.win] at hown
    have hwg0 : s.sem.wg = 0 := (w2 (by omega)).1
    exact @inv_set s t _ (.worker owner (.wgTail (.wake w)))
      ({ s.sem with wg := 0, waiters := 0 })
      (s.hist) hi hget
      (counts_set hi.counts hget _ _ _
        (hi.counts.le_cap)
        (hi.counts.unbuffered)
        (by
          simp [wAcq, wGo, CallPc.counted, wAdm, CallPc.admitted, wF, wRel, wDone, wFin,
            WorkPc.inTail, wExit]
          try omega))
      (window_set hget _ _
        (by simp [wWin, Thread.win]; omega)
        (by simp [wWin, Thread.win]; omega)
        (by simp [wWin, Thread.win]))
      rfl (fun u => rfl) rfl
      (winOk_of_zero _
        (by
          have e := weigh_set wWin _ t (.worker owner (.wgTail (.wake w))) _ hget
          simp [wWin, Thread.win] at e
          omega))
  · rw [hq] at h
    cases h
    exact @inv_set s t _ (.worker owner .exit)
      ({ s.sem with sema := s.sem.sema + 1 })
      (s.hist) hi hget
      (counts_set hi.counts hget _ _ _
        (hi.counts.le_cap)
        (hi.counts.unbuffered)
        (by
          simp [wAcq, wGo, CallPc.counted, wAdm, CallPc.admitted, wF, wRel, wDone, wFin,
            WorkPc.inTail, wExit]
          try omega))
      (window_keep hi.window hget _ _ rfl rfl rfl)
      rfl (fun u => rfl) rfl
      (winOk_set hi.win t _ rfl (fun w hww => by cases hww))
  · rw [hq] at h
    cases h
    exact @inv_set s t _ (.worker owner (.wgTail (.wake (k - 1))))
      ({ s.sem with sema := s.sem.sema + 1 })
      (s.hist) hi hget
      (counts_set hi.counts hget _ _ _
        (hi.counts.le_cap)
        (hi.counts.unbuffered)
        (by
          simp [wAcq, wGo, CallPc.counted, wAdm, CallPc.admitted, wF, wRel, wDone, wFin,
            WorkPc.inTail, wExit]
          try omega))
      (window_keep hi.window hget _ _ rfl rfl rfl)
      rfl (fun u => rfl) rfl
      (winOk_set hi.win t _ rfl (fun w hww => by cases hww))

theorem inv_worker {s : State} {t owner : Nat} {pc : WorkPc} {m : Moved} (hi : Inv s)
    (hget : s.threads[t]? = some (.worker owner pc))
    (h : worker s.sem s.hist owner pc = .next m) : Inv (s.moved t m) := by
  cases pc with
  | f => exact inv_worker_simple hi hget (Or.inl rfl) h
  | release => exact inv_worker_simple hi hget (Or.inr rfl) h
  | wgDone => exact inv_worker_done hi hget h
  | wgTail q => exact inv_worker_tail hi hget h
  | exit => simp [worker] at h

/-- With the invariant, no worker waits at its receive on an unbuffered
channel, so that a handoff never takes place. -/
theorem handoff_none {s : State} (hi : Inv s) (t u : Nat) : handoff s t u = none := by
  unfold handoff
  split
  · rename_i hcap
    split
    · rename_i op ctx owner hgt hgu
      have hle := weigh_get_le wRel _ _ _ hgu
      have c1 := hi.counts.le_cap
      have c2 := hi.counts.tokens_eq
      simp [wRel] at hle
      omega
    · rfl
  · rfl

theorem inv_run {s : State} {t : Nat} {b : Branch} {m : Moved} (hi : Inv s)
    (h : runThread s t b = .next m) : Inv (s.moved t m) := by
  unfold runThread at h
  split at h
  · rename_i ctx pc hget
    cases pc with
    | acquire =>
      cases b with
      | send =>
        simp only [Add] at h
        split at h
        · rename_i c' hc
          simp only [acquired] at h
          cases h
          exact inv_acquired hi hget hc
        · cases h
      | ctxDone =>
        simp only [Add] at h
        split at h
        · cases h
          exact inv_ret hi hget rfl (by simp [Result.fits])
        · cases h
      | dflt => simp [Add] at h
      | next => simp [Add] at h
    | start p =>
      cases b <;> simp only [Add, reduceCtorEq] at h
      exact @inv_start s t _ ctx p (Result.error none) m hi hget rfl rfl h
    | returned r => cases b <;> simp [Add] at h
  · rename_i ctx pc hget
    cases pc with
    | acquire =>
      cases b with
      | send =>
        simp only [TryAdd] at h
        split at h
        · rename_i c' hc
          simp only [acquired] at h
          cases h
          exact inv_acquired hi hget hc
        · cases h
      | dflt =>
        simp only [TryAdd] at h
        split at h
        · cases h
        · cases h
          exact inv_ret hi hget rfl rfl
      | ctxDone => simp [TryAdd] at h
      | next => simp [TryAdd] at h
    | start p =>
      cases b <;> simp only [TryAdd, reduceCtorEq] at h
      exact @inv_start s t _ ctx p (Result.bool true) m hi hget rfl rfl h
    | returned r => cases b <;> simp [TryAdd] at h
  · rename_i ctx pc hget
    cases pc with
    | acquire =>
      cases b with
      | send =>
        simp only [MustAdd] at h
        split at h
        · rename_i c' hc
          simp only [acquired] at h
          cases h
          exact inv_acquired hi hget hc
        · cases h
      | dflt => simp [MustAdd] at h
      | ctxDone => simp [MustAdd] at h
      | next => simp [MustAdd] at h
    | start p =>
      cases b <;> simp only [MustAdd, reduceCtorEq] at h
      exact @inv_start s t _ ctx p Result.unit m hi hget rfl rfl h
    | returned r => cases b <;> simp [MustAdd] at h
  · rename_i pc hget
    split at h
    · exact inv_wait hi hget h
    · cases h
  · rename_i owner pc hget
    split at h
    · exact inv_worker hi hget h
    · cases h
  · cases h

/-- A step of goroutine `t`, seen from `step`. -/
theorem step_run {s s' : State} {t : Nat} {b : Branch} (h : step s (.run t b) = some s') :
    ∃ m, runThread s t b = .next m ∧ s' = s.moved t m := by
  simp only [step] at h
  split at h
  · rename_i m hm
    cases h
    exact ⟨m, hm, rfl⟩
  · cases h

theorem inv_step {s s' : State} {a : Action} (hi : Inv s) (h : step s a = some s') :
    Inv s' := by
  cases a with
  | call op ctx =>
    cases op <;> simp only [step, Option.some.injEq] at h <;> subst h <;>
      exact inv_fork hi _ rfl rfl rfl rfl rfl rfl rfl rfl rfl (fun _ => rfl) rfl rfl
  | callWait =>
    simp only [step, Option.some.injEq] at h
    subst h
    exact inv_fork hi _ rfl rfl rfl rfl rfl rfl rfl rfl rfl (fun _ => rfl) rfl rfl
  | cancel t e => exact inv_cancel hi h
  | run t b =>
    obtain ⟨m, hm, rfl⟩ := step_run h
    exact inv_run hi hm
  | handoff t u =>
    simp only [step] at h
    rw [handoff_none hi] at h
    cases h

theorem inv_exec {tr : List Action} : ∀ {s s' : State}, Inv s → exec s tr = some s' → Inv s' := by
  induction tr with
  | nil =>
    intro s s' hi h
    simp only [exec, Option.some.injEq] at h
    subst h
    exact hi
  | cons a tr ih =>
    intro s s' hi h
    simp only [exec, Option.bind_eq_some] at h
    obtain ⟨s1, h1, h2⟩ := h
    exact ih (inv_step hi h1) h2

theorem inv_init {n : Int} {s : State} (h : init n = some s) : Inv s := by
  simp only [init, New, Option.map_eq_some'] at h
  obtain ⟨c, hc, rfl⟩ := h
  split at hc
  · cases hc
  · cases hc
    refine ⟨⟨?_, ?_, ?_, ?_, ?_, ?_, ?_, ?_, ?_⟩, ⟨?_, ?_, ?_⟩, ?_, ?_, ?_⟩
    all_goals simp [weigh, ThreadsOk, OwnedOk, WinOk, launched]

theorem init_cap {n : Int} {s : State} (h : init n = some s) :
    0 ≤ n ∧ (s.sem.cap : Int) = n := by
  simp only [init, New, Option.map_eq_some'] at h
  obtain ⟨c, hc, rfl⟩ := h
  split at hc
  · cases hc
  · cases hc
    simp
    omega

theorem inv_reachable {n : Int} {s : State} (h : Reachable n s) : Inv s := by
  obtain ⟨tr, h⟩ := h
  simp only [Option.bind_eq_some] at h
  obtain ⟨s0, h0, h1⟩ := h
  exact inv_exec (inv_init h0) h1

/-! ## Frame lemmas -/

theorem wgAdd_cap {c : Semaphore} {d : Int} :
    (∀ c', wgAdd c d = .done c' → c'.cap = c.cap ∧ c'.tokens = c.tokens) ∧
    (∀ c' q, wgAdd c d = .more c' q → c'.cap = c.cap ∧ c'.tokens = c.tokens) := by
  constructor
  · intro c' h
    obtain ⟨rfl, _⟩ := wgAdd_done h
    exact ⟨rfl, rfl⟩
  · intro c' q h
    obtain ⟨rfl, _⟩ := wgAdd_more h
    exact ⟨rfl, rfl⟩

theorem wgTail_cap {c : Semaphore} {q : WgPc} :
    (∀ c', wgTail c q = .done c' → c'.cap = c.cap ∧ c'.tokens = c.tokens) ∧
    (∀ c' q', wgTail c q = .more c' q' → c'.cap = c.cap ∧ c'.tokens = c.tokens) := by
  rcases @wgTail_cases c q with
    ⟨w, rfl, k1, k2, hq⟩ | ⟨w, rfl, k1, hq⟩ | ⟨rfl, hq⟩ | ⟨w, rfl, k1, hq⟩ |
    ⟨k, rfl, k1, hq⟩ | ⟨k, rfl, k1, hq⟩ <;>
  · rw [hq]
    constructor
    · intro c' h
      first
        | cases h; exact ⟨rfl, rfl⟩
        | cases h
    · intro c' q' h
      first
        | cases h; exact ⟨rfl, rfl⟩
        | cases h

theorem startWithToken_cap {c : Semaphore} {h : History} {t : Nat} {op : Op}
    {ctx : Option CtxErr} {r : Result} {p : StartPc} {m : Moved}
    (hm : startWithToken c h t op ctx r p = .next m) : m.sem.cap = c.cap := by
  cases p with
  | wgAdd =>
    simp only [startWithToken] at hm
    cases hq : wgAdd c 1 with
    | panic p => rw [hq] at hm; cases hm
    | done c' => rw [hq] at hm; cases hm; exact (wgAdd_cap.1 c' hq).1
    | more c' q => rw [hq] at hm; cases hm; exact (wgAdd_cap.2 c' q hq).1
  | wgTail q =>
    simp only [startWithToken] at hm
    cases hq : wgTail c q with
    | panic p => rw [hq] at hm; cases hm
    | done c' => rw [hq] at hm; cases hm; exact (wgTail_cap.1 c' hq).1
    | more c' q' => rw [hq] at hm; cases hm; exact (wgTail_cap.2 c' q' hq).1
  | go =>
    simp only [startWithToken] at hm
    cases hm
    rfl

theorem chanSend_cap {c c' : Semaphore} (h : chanSend c = some c') : c'.cap = c.cap := by
  unfold chanSend at h
  split at h <;> cases h
  rfl

theorem worker_cap {c : Semaphore} {h : History} {owner : Nat} {pc : WorkPc} {m : Moved}
    (hm : worker c h owner pc = .next m) : m.sem.cap = c.cap := by
  cases pc with
  | f => simp only [worker] at hm; cases hm; rfl
  | release =>
    simp only [worker, chanRecv] at hm
    split at hm
    · rename_i c' hc
      split at hc <;> cases hc
      cases hm
      rfl
    · cases hm
  | wgDone =>
    simp only [worker] at hm
    cases hq : wgAdd c (-1) with
    | panic p => rw [hq] at hm; cases hm
    | done c' => rw [hq] at hm; cases hm; exact (wgAdd_cap.1 c' hq).1
    | more c' q => rw [hq] at hm; cases hm; exact (wgAdd_cap.2 c' q hq).1
  | wgTail q =>
    simp only [worker] at hm
    cases hq : wgTail c q with
    | panic p => rw [hq] at hm; cases hm
    | done c' => rw [hq] at hm; cases hm; exact (wgTail_cap.1 c' hq).1
    | more c' q' => rw [hq] at hm; cases hm; exact (wgTail_cap.2 c' q' hq).1
  | exit => simp [worker] at hm

theorem Wait_cap {c : Semaphore} {h : History} {pc : WaitPc} {m : Moved}
    (hm : Wait c h pc = .next m) : m.sem.cap = c.cap := by
  cases pc <;> simp only [Wait] at hm
  · split at hm <;> cases hm <;> rfl
  · split at hm <;> cases hm <;> rfl
  · split at hm <;> cases hm <;> rfl
  · split at hm <;> cases hm
    rfl
  · split at hm <;> cases hm
    rfl
  · cases hm

theorem run_cap {s : State} {t : Nat} {b : Branch} {m : Moved}
    (h : runThread s t b = .next m) : m.sem.cap = s.sem.cap := by
  unfold runThread at h
  split at h
  · rename_i ctx pc hget
    cases pc <;> cases b <;> simp only [Add, reduceCtorEq] at h
    · split at h
      · rename_i c' hc
        simp only [acquired] at h
        cases h
        exact chanSend_cap hc
      · cases h
    · split at h <;> cases h
      rfl
    · exact startWithToken_cap h
  · rename_i ctx pc hget
    cases pc <;> cases b <;> simp only [TryAdd, reduceCtorEq] at h
    · split at h
      · rename_i c' hc
        simp only [acquired] at h
        cases h
        exact chanSend_cap hc
      · cases h
    · split at h <;> cases h
      rfl
    · exact startWithToken_cap h
  · rename_i ctx pc hget
    cases pc <;> cases b <;> simp only [MustAdd, reduceCtorEq] at h
    · split at h
      · rename_i c' hc
        simp only [acquired] at h
        cases h
        exact chanSend_cap hc
      · cases h
    · exact startWithToken_cap h
  · split at h
    · exact Wait_cap h
    · cases h
  · split at h
    · exact worker_cap h
    · cases h
  · cases h

theorem cap_step {s s' : State} {a : Action} (hi : Inv s) (h : step s a = some s') :
    s'.sem.cap = s.sem.cap := by
  cases a with
  | call op ctx => cases op <;> simp only [step, Option.some.injEq] at h <;> subst h <;> rfl
  | callWait => simp only [step, Option.some.injEq] at h; subst h; rfl
  | cancel t e =>
    simp only [step, cancel] at h
    split at h <;> cases h
    rfl
  | run t b =>
    obtain ⟨m, hm, rfl⟩ := step_run h
    exact run_cap hm
  | handoff t u =>
    simp only [step] at h
    rw [handoff_none hi] at h
    cases h

theorem cap_exec {tr : List Action} :
    ∀ {s s' : State}, Inv s → exec s tr = some s' → s'.sem.cap = s.sem.cap := by
  induction tr with
  | nil =>
    intro s s' _ h
    simp only [exec, Option.some.injEq] at h
    subst h
    rfl
  | cons a tr ih =>
    intro s s' hi h
    simp only [exec, Option.bind_eq_some] at h
    obtain ⟨s1, h1, h2⟩ := h
    rw [ih (inv_step hi h1) h2, cap_step hi h1]

theorem cap_reachable {n : Int} {s : State} (h : Reachable n s) :
    0 ≤ n ∧ (s.sem.cap : Int) = n := by
  obtain ⟨tr, h⟩ := h
  simp only [Option.bind_eq_some] at h
  obtain ⟨s0, h0, h1⟩ := h
  have := init_cap h0
  rw [cap_exec (inv_init h0) h1]
  exact this

/-- A step leaves every thread alone except the one it runs or cancels. -/
theorem step_other {s s' : State} {a : Action} {t : Nat} {th : Thread} (hi : Inv s)
    (h : step s a = some s') (hget : s.threads[t]? = some th)
    (hrun : ∀ b, a ≠ .run t b) (hcan : ∀ e, a ≠ .cancel t e) :
    s'.threads[t]? = some th := by
  have hlt := lt_length_of_get hget
  cases a with
  | call op ctx =>
    cases op <;> simp only [step, Option.some.injEq] at h <;> subst h <;>
      simp only [List.getElem?_append_left hlt, hget]
  | callWait =>
    simp only [step, Option.some.injEq] at h
    subst h
    simp only [List.getElem?_append_left hlt, hget]
  | cancel u e =>
    have hne : u ≠ t := fun hu => hcan e (by rw [hu])
    simp only [step, cancel] at h
    split at h <;> cases h
    simp [State.setThread, List.getElem?_set_ne hne, hget]
  | run u b =>
    have hne : u ≠ t := fun hu => hrun b (by rw [hu])
    obtain ⟨m, hm, rfl⟩ := step_run h
    simp only [State.moved]
    rw [List.getElem?_append_left (by simpa using hlt), List.getElem?_set_ne hne, hget]
  | handoff u v =>
    simp only [step] at h
    rw [handoff_none hi] at h
    cases h

theorem exec_snoc (tr : List Action) (a : Action) :
    ∀ s : State, exec s (tr ++ [a]) = (exec s tr).bind fun s' => step s' a := by
  induction tr with
  | nil =>
    intro s
    simp only [List.nil_append, exec, Option.some_bind]
    cases step s a <;> rfl
  | cons b tr ih =>
    intro s
    simp only [List.cons_append, exec]
    cases step s b with
    | none => rfl
    | some s1 => exact ih s1

theorem exec_append (tr tr' : List Action) :
    ∀ s : State, exec s (tr ++ tr') = (exec s tr).bind fun s' => exec s' tr' := by
  induction tr with
  | nil => intro s; rfl
  | cons b tr ih =>
    intro s
    simp only [List.cons_append, exec]
    cases step s b with
    | none => rfl
    | some s1 => exact ih s1

theorem reachable_step {n : Int} {s s' : State} {a : Action} (h : Reachable n s)
    (hs : step s a = some s') : Reachable n s' := by
  obtain ⟨tr, htr⟩ := h
  refine ⟨tr ++ [a], ?_⟩
  simp only [Option.bind_eq_some] at htr ⊢
  obtain ⟨s0, h0, h1⟩ := htr
  exact ⟨s0, h0, by rw [exec_snoc, h1]; exact hs⟩

/-! ## Executions and single steps -/

theorem exFull_reachable : Reachable 1 exFull := ⟨trFull, rfl⟩

theorem exSignaled_reachable : Reachable 1 exSignaled := ⟨trSignaled, rfl⟩

theorem exRace_reachable : Reachable 1 exRace := ⟨[.call .add (some .canceled)], rfl⟩

theorem exSaturatedAdd_reachable : Reachable 1 exSaturatedAdd := ⟨trSaturatedAdd, rfl⟩

theorem exDraining_reachable : Reachable 1 exDraining := ⟨trDraining, rfl⟩

theorem exAcquired_reachable : Reachable 1 exAcquired := ⟨trAcquired, rfl⟩

theorem exZero_reachable : Reachable 0 exZero := ⟨trZero, rfl⟩

theorem exDoomed_reachable : Reachable 1 exDoomed := ⟨trDoomed, rfl⟩

theorem exDoomedTry_reachable : Reachable 1 exDoomedTry := ⟨trDoomedTry, rfl⟩

theorem exRaceWindow_reachable : Reachable 1 exRaceWindow := ⟨trRaceWindow, rfl⟩

/-- The atomic addition of `s.wg.Add(1)` goes through unless the counter is zero
with waiters registered. -/
theorem wgAdd_one {c : Semaphore} (hwg : 0 ≤ c.wg) (hno : c.wg ≠ 0 ∨ c.waiters = 0) :
    wgAdd c 1 = .done { c with wg := c.wg + 1 } := by
  unfold wgAdd
  rw [if_neg (by omega), if_neg (by omega), if_pos (by omega)]

/-- The atomic addition of `s.wg.Add(1)` panics when the counter is zero with
waiters registered. -/
theorem wgAdd_one_panics {c : Semaphore} (hwg : c.wg = 0) (hw : c.waiters ≠ 0) :
    wgAdd c 1 = .panic .addDuringWait := by
  unfold wgAdd
  rw [if_neg (by omega), if_pos ⟨hw, by omega, by omega⟩]

theorem send_step {s : State} {t : Nat} {op : Op} {ctx : Option CtxErr}
    (hget : s.threads[t]? = some (.caller op ctx .acquire))
    (hfree : s.sem.tokens < s.sem.cap) :
    step s (.run t .send) = some
      { sem := { s.sem with tokens := s.sem.tokens + 1 }
        threads := s.threads.set t (.caller op ctx (.start .wgAdd))
        hist := { s.hist with sends := s.hist.sends + 1 } } := by
  cases op <;>
    simp [step, runThread, hget, Add, TryAdd, MustAdd, chanSend, hfree, acquired, State.moved]

theorem wgAdd_step {s : State} {t : Nat} {op : Op} {ctx : Option CtxErr}
    (hget : s.threads[t]? = some (.caller op ctx (.start .wgAdd)))
    (hwg : 0 ≤ s.sem.wg) (hno : s.sem.wg ≠ 0 ∨ s.sem.waiters = 0) :
    step s (.run t .next) = some
      { sem := { s.sem with wg := s.sem.wg + 1 }
        threads := s.threads.set t (.caller op ctx (.start .go))
        hist := { s.hist with adds := s.hist.adds + 1 } } := by
  cases op <;>
    simp [step, runThread, hget, Add, TryAdd, MustAdd, startWithToken, wgAdd_one hwg hno,
      State.moved]

theorem go_step {s : State} {t : Nat} {op : Op} {ctx : Option CtxErr}
    (hget : s.threads[t]? = some (.caller op ctx (.start .go))) :
    step s (.run t .next) = some
      { s with
        threads :=
          s.threads.set t (.caller op ctx (.returned op.admittedResult)) ++ [.worker t .f] } := by
  cases op <;>
    simp [step, runThread, hget, Add, TryAdd, MustAdd, startWithToken, State.moved,
      Op.admittedResult]

theorem exec_two {s s1 s2 : State} {a b : Action} (h1 : step s a = some s1)
    (h2 : step s1 b = some s2) : exec s [a, b] = some s2 := by
  simp only [exec, h1, h2, Option.some_bind]

theorem exec_three {s s1 s2 s3 : State} {a b c : Action} (h1 : step s a = some s1)
    (h2 : step s1 b = some s2) (h3 : step s2 c = some s3) : exec s [a, b, c] = some s3 := by
  simp only [exec, h1, h2, h3, Option.some_bind]

theorem admit_solo {s : State} {t : Nat} {op : Op} {ctx : Option CtxErr}
    (hget : s.threads[t]? = some (.caller op ctx .acquire))
    (hfree : s.sem.tokens < s.sem.cap)
    (hwg : 0 ≤ s.sem.wg) (hno : s.sem.wg ≠ 0 ∨ s.sem.waiters = 0) :
    exec s [.run t .send, .run t .next, .run t .next] = some (admittedState s t op ctx) := by
  have hlt := lt_length_of_get hget
  refine exec_three (send_step hget hfree)
    (wgAdd_step (List.getElem?_set_self hlt) hwg hno) ?_
  rw [go_step (List.getElem?_set_self (by simpa using hlt))]
  simp [admittedState]

theorem run_send_full {s : State} {t : Nat} (hfull : ¬ s.sem.tokens < s.sem.cap) (m : Moved) :
    runThread s t .send ≠ .next m := by
  unfold runThread
  split
  · rename_i ctx pc hget
    cases pc <;> simp [Add, chanSend, hfull]
  · rename_i ctx pc hget
    cases pc <;> simp [TryAdd, chanSend, hfull]
  · rename_i ctx pc hget
    cases pc <;> simp [MustAdd, chanSend, hfull]
  · simp
  · simp
  · simp

theorem send_full {s : State} {t : Nat} (hfull : ¬ s.sem.tokens < s.sem.cap) :
    step s (.run t .send) = none := by
  simp only [step]
  split
  · rename_i m hm
    exact absurd hm (run_send_full hfull m)
  · rfl

/-- The only step that takes a goroutine out of `Wait` is its own evaluation
of the loop condition, in a state whose channel is empty. -/
theorem wait_return_step {s s' : State} {a : Action} {t : Nat} {pc : WaitPc} (hi : Inv s)
    (hs : step s a = some s') (hget : s.threads[t]? = some (.waiter pc))
    (hpc : pc ≠ .returned) (hret : s'.threads[t]? = some (.waiter .returned)) :
    a = .run t .next ∧ pc = .check ∧ s.sem.tokens = 0 ∧
      s' = s.setThread t (.waiter .returned) := by
  have hlt := lt_length_of_get hget
  by_cases hrun : ∃ b, a = .run t b
  · obtain ⟨b, rfl⟩ := hrun
    obtain ⟨m, hm, rfl⟩ := step_run hs
    have hself : m.self = .waiter .returned := by
      simp only [State.moved] at hret
      rw [List.getElem?_append_left (by simpa using hlt), List.getElem?_set_self hlt] at hret
      exact Option.some.inj hret
    simp only [runThread, hget] at hm
    split at hm
    · rename_i hb
      subst hb
      cases pc with
      | check =>
        simp only [Wait] at hm
        split at hm
        · cases hm
          cases hself
        · rename_i hz
          cases hm
          exact ⟨rfl, rfl, by omega, by simp [State.moved, State.setThread]⟩
      | wgWait =>
        simp only [Wait] at hm
        split at hm <;> cases hm <;> cases hself
      | wgCas v w =>
        simp only [Wait] at hm
        split at hm <;> cases hm <;> cases hself
      | wgPark =>
        simp only [Wait] at hm
        split at hm
        · cases hm
          cases hself
        · cases hm
      | wgWoken =>
        simp only [Wait] at hm
        split at hm
        · cases hm
          cases hself
        · cases hm
      | returned => exact absurd rfl hpc
    · cases hm
  · by_cases hcan : ∃ e, a = .cancel t e
    · obtain ⟨e, rfl⟩ := hcan
      simp [step, cancel, hget] at hs
    · have hsame := step_other hi hs hget (fun b hb => hrun ⟨b, hb⟩)
        (fun e he => hcan ⟨e, he⟩)
      rw [hsame] at hret
      cases hret
      exact absurd rfl hpc

/-- The four program points at which a goroutine has a number of waiters
stored. -/
theorem win_cases {th : Thread} {w : Nat} (h : th.win = some w) :
    (∃ op ctx, th = .caller op ctx (.start (.wgTail (.check w)))) ∨
    (∃ op ctx, th = .caller op ctx (.start (.wgTail (.store w)))) ∨
    (∃ owner, th = .worker owner (.wgTail (.check w))) ∨
    (∃ owner, th = .worker owner (.wgTail (.store w))) := by
  cases th with
  | waiter pc => cases h
  | caller op ctx pc =>
    cases pc with
    | acquire => cases h
    | returned r => cases h
    | start p =>
      cases p with
      | wgAdd => cases h
      | go => cases h
      | wgTail q =>
        cases q with
        | check w' => cases h; exact Or.inl ⟨op, ctx, rfl⟩
        | store w' => cases h; exact Or.inr (Or.inl ⟨op, ctx, rfl⟩)
        | wake k => cases h
  | worker owner pc =>
    cases pc with
    | f => cases h
    | release => cases h
    | wgDone => cases h
    | exit => cases h
    | wgTail q =>
      cases q with
      | check w' => cases h; exact Or.inr (Or.inr (Or.inl ⟨owner, rfl⟩))
      | store w' => cases h; exact Or.inr (Or.inr (Or.inr ⟨owner, rfl⟩))
      | wake k => cases h

/-- While the counter is zero with waiters registered, some goroutine is
about to reset the `WaitGroup` and has the number of waiters stored. -/
theorem window_thread {s : State} (hi : Inv s) (hwg : s.sem.wg = 0)
    (hw : s.sem.waiters ≠ 0) :
    ∃ (u : Nat) (th : Thread), s.threads[u]? = some th ∧ th.win = some s.sem.waiters := by
  have h1 : weigh wWin s.threads = 1 := by
    rcases hi.window.waiters_win hw with h | h
    · exact absurd hwg h
    · exact h
  obtain ⟨u, th, hu, hpos⟩ := weigh_pos wWin s.threads (by omega)
  cases hwin : th.win with
  | none => simp [wWin, hwin] at hpos
  | some w =>
    have := hi.win u th w hu hwin
    exact ⟨u, th, hu, by rw [this]; exact hwin⟩

/-- The step of the goroutine that re-reads the state of the `WaitGroup`. -/
theorem check_step {s : State} {u : Nat} {th : Thread} {w : Nat}
    (hu : s.threads[u]? = some th) (hwg : s.sem.wg = 0) (hw : s.sem.waiters = w)
    (hth : (∃ op ctx, th = .caller op ctx (.start (.wgTail (.check w)))) ∨
      (∃ owner, th = .worker owner (.wgTail (.check w)))) :
    ∃ th', th'.win = some w ∧ step s (.run u .next) = some (s.setThread u th') ∧
      ((∃ op ctx, th' = .caller op ctx (.start (.wgTail (.store w)))) ∨
        (∃ owner, th' = .worker owner (.wgTail (.store w)))) := by
  rcases hth with ⟨op, ctx, rfl⟩ | ⟨owner, rfl⟩
  · refine ⟨.caller op ctx (.start (.wgTail (.store w))), rfl, ?_, Or.inl ⟨op, ctx, rfl⟩⟩
    cases op <;>
      simp [step, runThread, hu, Add, TryAdd, MustAdd, startWithToken, wgTail, hwg, hw,
        State.moved, State.setThread]
  · refine ⟨.worker owner (.wgTail (.store w)), rfl, ?_, Or.inr ⟨owner, rfl⟩⟩
    simp [step, runThread, hu, worker, wgTail, hwg, hw, State.moved, State.setThread]

/-- The step of the goroutine that resets the state of the `WaitGroup`. -/
theorem store_step {s : State} {u : Nat} {th : Thread} {w : Nat}
    (hu : s.threads[u]? = some th) (hw : w ≠ 0)
    (hth : (∃ op ctx, th = .caller op ctx (.start (.wgTail (.store w)))) ∨
      (∃ owner, th = .worker owner (.wgTail (.store w)))) :
    ∃ th', step s (.run u .next) = some
      { sem := { s.sem with wg := 0, waiters := 0 }
        threads := s.threads.set u th'
        hist := s.hist } := by
  rcases hth with ⟨op, ctx, rfl⟩ | ⟨owner, rfl⟩
  · refine ⟨.caller op ctx (.start (.wgTail (.wake w))), ?_⟩
    cases op <;>
      simp [step, runThread, hu, Add, TryAdd, MustAdd, startWithToken, wgTail, hw, State.moved]
  · refine ⟨.worker owner (.wgTail (.wake w)), ?_⟩
    simp [step, runThread, hu, worker, wgTail, hw, State.moved]

theorem exec_one {s s1 : State} {a : Action} (h1 : step s a = some s1) :
    exec s [a] = some s1 := by
  simp only [exec, h1, Option.some_bind]

/-- While the counter is zero with waiters registered, the goroutine that is
about to reset the `WaitGroup` can do so in at most two statements, which
touch no other goroutine, neither the channel nor the history. -/
theorem close_window {s : State} (hi : Inv s) (hwg : s.sem.wg = 0)
    (hw : s.sem.waiters ≠ 0) :
    ∃ pre s2, pre.length ≤ 2 ∧ exec s pre = some s2 ∧
      s2.sem = { s.sem with wg := 0, waiters := 0 } ∧ s2.hist = s.hist ∧
      s2.threads.length = s.threads.length ∧
      ∀ (t : Nat) (th : Thread), s.threads[t]? = some th → th.win = none →
        s2.threads[t]? = some th := by
  obtain ⟨u, th, hu, hwin⟩ := window_thread hi hwg hw
  have hlu := lt_length_of_get hu
  have frame : ∀ (th' : Thread) (t : Nat) (x : Thread), s.threads[t]? = some x →
      x.win = none → (s.threads.set u th')[t]? = some x := by
    intro th' t x hx hxw
    have hne : u ≠ t := by
      intro hut
      subst hut
      rw [hu] at hx
      cases hx
      rw [hwin] at hxw
      cases hxw
    rw [List.getElem?_set_ne hne, hx]
  rcases win_cases hwin with hc | hc | hc | hc
  · obtain ⟨th1, hw1, hs1, hth1⟩ := check_step hu hwg rfl (Or.inl hc)
    have hu1 : (s.setThread u th1).threads[u]? = some th1 := by
      simp only [State.setThread]
      exact List.getElem?_set_self hlu
    obtain ⟨th2, hs2⟩ := store_step hu1 hw hth1
    refine ⟨[.run u .next, .run u .next], _, by simp, exec_two hs1 hs2, rfl, rfl,
      by simp [State.setThread], ?_⟩
    intro t x hx hxw
    simp only [State.setThread, List.set_set]
    exact frame th2 t x hx hxw
  · obtain ⟨th2, hs2⟩ := store_step hu hw (Or.inl hc)
    refine ⟨[.run u .next], _, by simp, exec_one hs2, rfl, rfl, by simp, ?_⟩
    intro t x hx hxw
    exact frame th2 t x hx hxw
  · obtain ⟨th1, hw1, hs1, hth1⟩ := check_step hu hwg rfl (Or.inr hc)
    have hu1 : (s.setThread u th1).threads[u]? = some th1 := by
      simp only [State.setThread]
      exact List.getElem?_set_self hlu
    obtain ⟨th2, hs2⟩ := store_step hu1 hw hth1
    refine ⟨[.run u .next, .run u .next], _, by simp, exec_two hs1 hs2, rfl, rfl,
      by simp [State.setThread], ?_⟩
    intro t x hx hxw
    simp only [State.setThread, List.set_set]
    exact frame th2 t x hx hxw
  · obtain ⟨th2, hs2⟩ := store_step hu hw (Or.inr hc)
    refine ⟨[.run u .next], _, by simp, exec_one hs2, rfl, rfl, by simp, ?_⟩
    intro t x hx hxw
    exact frame th2 t x hx hxw

/-- The `s.wg.Add(1)` of a call panics when the counter is zero with waiters
registered. -/
theorem panics_wgAdd {s : State} {t : Nat} {op : Op} {ctx : Option CtxErr}
    (hget : s.threads[t]? = some (.caller op ctx (.start .wgAdd)))
    (hwg : s.sem.wg = 0) (hw : s.sem.waiters ≠ 0) :
    panics s (.run t .next) = some .addDuringWait ∧ step s (.run t .next) = none := by
  cases op <;>
    simp [panics, step, runThread, hget, Add, TryAdd, MustAdd, startWithToken,
      wgAdd_one_panics hwg hw]

/-- No statement of `startWithToken` is ever blocked: it is executed or it
panics. -/
theorem start_not_blocked {s : State} {t : Nat} {op : Op} {ctx : Option CtxErr} {p : StartPc}
    (hget : s.threads[t]? = some (.caller op ctx (.start p))) :
    (step s (.run t .next)).isSome = true ∨ (panics s (.run t .next)).isSome = true := by
  have key : ∀ r, startWithToken s.sem s.hist t op ctx r p ≠ .blocked := by
    intro r
    cases p with
    | wgAdd =>
      simp only [startWithToken]
      cases wgAdd s.sem 1 <;> simp
    | wgTail q =>
      simp only [startWithToken]
      cases wgTail s.sem q <;> simp
    | go => simp [startWithToken]
  have hrun : runThread s t .next ≠ .blocked := by
    cases op <;> simp only [runThread, hget, Add, TryAdd, MustAdd] <;> exact key _
  simp only [step, panics]
  cases hr : runThread s t .next with
  | blocked => exact absurd hr hrun
  | panic p => exact Or.inr rfl
  | next m => exact Or.inl rfl

/-- In `exRaceWindow` the counter of the `WaitGroup` is zero with one waiter
registered and the reset still to come.  The `Add` can send, but if it runs
`s.wg.Add(1)` right after its send, before the reset, that statement panics:
the call running alone does not return. -/
theorem solo_admission_in_window :
    exec exRaceWindow [.run 3 .send, .run 3 .next, .run 3 .next] = none ∧
    (step exRaceWindow (.run 3 .send)).bind (fun s1 => panics s1 (.run 3 .next))
      = some .addDuringWait :=
  ⟨rfl, rfl⟩

/-! ## The claims -/

/-- C1. Capacity invariant: in every state reachable from `New(n)` the capacity
of the channel is `n`, the number of tokens in the channel is between `0` and
`n`, and the number of workers whose `f` has been started and has not yet
returned is at most the number of tokens, hence at most `n`. -/
theorem capacity_invariant (n : Int) (s : State) (h : Reachable n s) :
    0 ≤ n ∧ (s.sem.cap : Int) = n ∧
    (0 : Int) ≤ s.sem.tokens ∧ (s.sem.tokens : Int) ≤ n ∧
    weigh wF s.threads ≤ s.sem.tokens ∧ (weigh wF s.threads : Int) ≤ n := by
  obtain ⟨hn, hcap⟩ := cap_reachable h
  have hi := inv_reachable h
  have c1 := hi.counts.le_cap
  have c2 := hi.counts.tokens_eq
  refine ⟨hn, hcap, ?_, ?_, ?_, ?_⟩ <;> omega

theorem capacity_invariant_witness :
    Reachable 1 exFull ∧ weigh wF exFull.threads = 1 ∧
    (0 ≤ (1 : Int) ∧ (exFull.sem.cap : Int) = 1 ∧
    (0 : Int) ≤ exFull.sem.tokens ∧ (exFull.sem.tokens : Int) ≤ 1 ∧
    weigh wF exFull.threads ≤ exFull.sem.tokens ∧ (weigh wF exFull.threads : Int) ≤ 1) :=
  ⟨exFull_reachable, rfl, capacity_invariant 1 exFull exFull_reachable⟩

/-- C2 (as amended). `TryAdd` never blocks and reports whether `f` was added.
In a reachable state, for a call at the `select` of `TryAdd`: no handoff and no
other branch is possible; if fewer than `cap` tokens are in the channel the
`default` case is not enabled and the send puts exactly one token in the
channel, after which the call, if its `s.wg.Add(1)` does not panic, raises the
`WaitGroup` by one, starts exactly one worker running its `f`, and returns
`true`; otherwise the send is not enabled and `default` returns `false`, leaving
the semaphore, the history and all other threads as they were.  When `cap`
units are running the channel is full, so that `TryAdd` returns `false`; and
once a worker that stands at its release has executed `<-s.tokens`, a `TryAdd`
that follows returns `true`.  Inside `startWithToken` no statement is ever
blocked, `s.wg.Add(1)` raises the counter by one if it does not panic, and the
`go` statement starts one worker and returns `true`.  A returned `TryAdd` holds
a `bool`, has started one worker if it is `true` and none if it is `false`, and
takes no further step. -/
theorem tryAdd_spec (n : Int) (s : State) (h : Reachable n s) :
    (∀ t ctx, s.threads[t]? = some (.caller .tryAdd ctx .acquire) →
      (∀ u, step s (.handoff t u) = none) ∧
      step s (.run t .ctxDone) = none ∧ step s (.run t .next) = none ∧
      (s.sem.tokens < s.sem.cap →
        step s (.run t .dflt) = none ∧
        ∃ s1, step s (.run t .send) = some s1 ∧
          s1.sem.tokens = s.sem.tokens + 1 ∧ s1.sem.wg = s.sem.wg ∧
          s1.threads = s.threads.set t (.caller .tryAdd ctx (.start .wgAdd)) ∧
          (panics s1 (.run t .next) = none →
            ∃ s', exec s1 [.run t .next, .run t .next] = some s' ∧
              s'.sem.tokens = s.sem.tokens + 1 ∧ s'.sem.wg = s.sem.wg + 1 ∧
              s'.threads =
                s.threads.set t (.caller .tryAdd ctx (.returned (.bool true)))
                  ++ [.worker t .f])) ∧
      (¬ s.sem.tokens < s.sem.cap →
        step s (.run t .send) = none ∧
        ∃ s', step s (.run t .dflt) = some s' ∧ s'.sem = s.sem ∧ s'.hist = s.hist ∧
          s'.threads = s.threads.set t (.caller .tryAdd ctx (.returned (.bool false)))) ∧
      (s.sem.cap ≤ weigh wF s.threads → ¬ s.sem.tokens < s.sem.cap) ∧
      (∀ u owner, s.threads[u]? = some (.worker owner .release) →
        ∃ s', exec s [.run u .next, .run t .send, .run t .next, .run t .next] = some s' ∧
          s'.threads[t]? = some (.caller .tryAdd ctx (.returned (.bool true))) ∧
          s'.sem.tokens = s.sem.tokens)) ∧
    (∀ t ctx p, s.threads[t]? = some (.caller .tryAdd ctx (.start p)) →
      (step s (.run t .next)).isSome = true ∨ (panics s (.run t .next)).isSome = true) ∧
    (∀ t ctx, s.threads[t]? = some (.caller .tryAdd ctx (.start .wgAdd)) →
      panics s (.run t .next) = none →
      ∃ s', step s (.run t .next) = some s' ∧ s'.sem.wg = s.sem.wg + 1 ∧
        s'.sem.tokens = s.sem.tokens ∧
        s'.threads = s.threads.set t (.caller .tryAdd ctx (.start .go))) ∧
    (∀ t ctx, s.threads[t]? = some (.caller .tryAdd ctx (.start .go)) →
      ∃ s', step s (.run t .next) = some s' ∧ s'.sem = s.sem ∧
        s'.threads =
          s.threads.set t (.caller .tryAdd ctx (.returned (.bool true))) ++ [.worker t .f]) ∧
    (∀ t ctx r, s.threads[t]? = some (.caller .tryAdd ctx (.returned r)) →
      (r = .bool true ∨ r = .bool false) ∧
      weigh (wOwned t) s.threads = (if r = .bool true then 1 else 0) ∧
      ∀ b, step s (.run t b) = none ∧ panics s (.run t b) = none) := by
  have hi := inv_reachable h
  have c1 := hi.counts.le_cap
  have c2 := hi.counts.tokens_eq
  have c3 := hi.counts.wg_eq
  have nopanic : ∀ (s0 : State) (t : Nat) (ctx : Option CtxErr),
      s0.threads[t]? = some (.caller .tryAdd ctx (.start .wgAdd)) →
      panics s0 (.run t .next) = none → s0.sem.wg ≠ 0 ∨ s0.sem.waiters = 0 := by
    intro s0 t ctx hg hp
    by_contra hcon
    have hp' := (panics_wgAdd hg (by omega) (by omega)).1
    rw [hp] at hp'
    cases hp'
  refine ⟨?_, ?_, ?_, ?_, ?_⟩
  · intro t ctx hget
    have hlt := lt_length_of_get hget
    refine ⟨fun u => handoff_none hi t u, ?_, ?_, ?_, ?_, ?_, ?_⟩
    · simp [step, runThread, hget, TryAdd]
    · simp [step, runThread, hget, TryAdd]
    · intro hfree
      refine ⟨?_, _, send_step hget hfree, rfl, rfl, rfl, ?_⟩
      · simp [step, runThread, hget, TryAdd, chanSend, hfree]
      · intro hp
        have hg1 : (s.threads.set t (Thread.caller .tryAdd ctx (.start .wgAdd)))[t]?
            = some (.caller .tryAdd ctx (.start .wgAdd)) := List.getElem?_set_self hlt
        have hno := nopanic _ t ctx hg1 hp
        refine ⟨_, exec_two (wgAdd_step hg1 (by simp only; omega) hno)
          (go_step (List.getElem?_set_self (by simpa using hlt))), rfl, rfl, ?_⟩
        simp [Op.admittedResult]
    · intro hfull
      refine ⟨send_full hfull,
        s.setThread t (.caller .tryAdd ctx (.returned (.bool false))), ?_, rfl, rfl, rfl⟩
      simp [step, runThread, hget, TryAdd, chanSend, hfull, State.moved, State.setThread]
    · intro hrun
      omega
    · intro u owner hgu
      have hlu := lt_length_of_get hgu
      have hne : u ≠ t := by
        intro hut
        rw [hut, hget] at hgu
        cases hgu
      have hle := weigh_get_le wRel _ _ _ hgu
      simp only [wRel, if_true] at hle
      have hpos : 0 < s.sem.tokens := by omega
      have hstep : step s (.run u .next) = some (releasedState s u owner) := by
        simp [step, runThread, hgu, worker, chanRecv, hpos, releasedState, State.moved]
      have hget' : (releasedState s u owner).threads[t]?
          = some (.caller .tryAdd ctx .acquire) := by
        simp only [releasedState]
        rw [List.getElem?_set_ne hne, hget]
      have hsolo := admit_solo hget'
        (show (releasedState s u owner).sem.tokens < (releasedState s u owner).sem.cap by
          simp only [releasedState]; omega)
        (show 0 ≤ (releasedState s u owner).sem.wg by simp only [releasedState]; omega)
        (Or.inl (show (releasedState s u owner).sem.wg ≠ 0 by
          simp only [releasedState]; omega))
      refine ⟨admittedState (releasedState s u owner) t .tryAdd ctx, ?_, ?_, ?_⟩
      · rw [exec, hstep]
        exact hsolo
      · simp only [admittedState, releasedState, Op.admittedResult]
        rw [List.getElem?_append_left (by simpa using hlt),
          List.getElem?_set_self (by simpa using hlt)]
      · simp only [admittedState, releasedState]
        omega
  · intro t ctx p hget
    exact start_not_blocked hget
  · intro t ctx hget hp
    have hno := nopanic s t ctx hget hp
    exact ⟨_, wgAdd_step hget (by omega) hno, rfl, rfl, rfl⟩
  · intro t ctx hget
    exact ⟨_, go_step hget, rfl, by simp [Op.admittedResult]⟩
  · intro t ctx r hget
    have hr := hi.threads t _ hget
    have ho := hi.owned t
    rw [hget] at ho
    simp only [threadOk, Result.fits, Bool.or_eq_true, decide_eq_true_eq] at hr
    refine ⟨hr, ?_, ?_⟩
    · rw [ho]
      rcases hr with rfl | rfl <;> simp [launched, wAdm, CallPc.admitted, Result.admitted]
    · intro b
      cases b <;> simp [step, panics, runThread, hget, TryAdd]

theorem tryAdd_spec_witness :
    Reachable 1 exSignaled ∧
    step exSignaled (.run 2 .send) = none ∧
    (∃ s', step exSignaled (.run 2 .dflt) = some s' ∧ s'.sem = exSignaled.sem ∧
      s'.hist = exSignaled.hist ∧
      s'.threads = exSignaled.threads.set 2 (.caller .tryAdd none (.returned (.bool false)))) ∧
    (∃ s', exec exSignaled [.run 1 .next, .run 2 .send, .run 2 .next, .run 2 .next] = some s' ∧
      s'.threads[2]? = some (.caller .tryAdd none (.returned (.bool true))) ∧
      s'.sem.tokens = exSignaled.sem.tokens) :=
  have key := (tryAdd_spec 1 exSignaled exSignaled_reachable).1 2 none rfl
  ⟨exSignaled_reachable, (key.2.2.2.2.1 (by decide)).1, (key.2.2.2.2.1 (by decide)).2,
    key.2.2.2.2.2.2 1 0 rfl⟩

/-- C2, counterexample to the claim as stated.  With capacity 1, one unit is
admitted and then signalled to finish: its `f` returns, so that the worker
stands at its release.  A `TryAdd` that follows finds the channel still full:
the send cannot proceed and the call returns `false`. -/
theorem tryAdd_after_signal_counterexample :
    (init 1).bind (fun s0 => exec s0 trSignaled) = some exSignaled ∧
    exSignaled.threads[1]? = some (.worker 0 .release) ∧
    step exSignaled (.run 2 .send) = none ∧
    (step exSignaled (.run 2 .dflt)).map (fun s' => s'.threads[2]?)
      = some (some (.caller .tryAdd none (.returned (.bool false)))) :=
  ⟨rfl, rfl, rfl, rfl⟩

/-- C3, the code at the failing input.  With capacity 1, a goroutine sleeps in
`s.wg.Wait()` and the only admitted unit has executed the atomic subtraction of
`s.wg.Done()`, bringing the counter to zero, but not yet the reset.  An `Add`
with a live context is called and sends its token, the slot being free.  Its
next statement, `s.wg.Add(1)`, panics: the call has taken a slot, has started
no worker and returns neither `nil` nor `ctx.Err()`. -/
theorem add_panics_after_send :
    (init 1).bind (fun s0 => exec s0 trDoomed) = some exDoomed ∧
    exDoomed.threads[3]? = some (.caller .add none (.start .wgAdd)) ∧
    exDoomed.sem.tokens = 1 ∧ exDoomed.hist.sends = 2 ∧ exDoomed.hist.recvs = 1 ∧
    panics exDoomed (.run 3 .next) = some .addDuringWait ∧
    (∀ b, step exDoomed (.run 3 b) = none) ∧
    weigh (wOwned 3) exDoomed.threads = 0 :=
  ⟨rfl, rfl, rfl, rfl, rfl, rfl, fun b => by cases b <;> rfl, rfl⟩

/-- C4. In a reachable state whose channel is full, a call at the `select` of
`Add` with a context that is already done does not block and can only take
the `<-ctx.Done()` case: the send, a handoff and every other branch are not
enabled, and the step returns `ctx.Err()`, which is not `nil`, leaves the
semaphore (tokens and `WaitGroup`) and the history unchanged, changes no
other thread and starts no worker. -/
theorem add_done_saturated (n : Int) (s : State) (t : Nat) (e : CtxErr)
    (h : Reachable n s) (hget : s.threads[t]? = some (.caller .add (some e) .acquire))
    (hfull : s.sem.tokens = s.sem.cap) :
    step s (.run t .send) = none ∧ (∀ u, step s (.handoff t u) = none) ∧
    step s (.run t .dflt) = none ∧ step s (.run t .next) = none ∧
    ∃ s', step s (.run t .ctxDone) = some s' ∧
      s'.threads = s.threads.set t (.caller .add (some e) (.returned (.error (some e)))) ∧
      s'.threads[t]? = some (.caller .add (some e) (.returned (.error (some e)))) ∧
      Result.error (some e) ≠ Result.error none ∧
      s'.sem = s.sem ∧ s'.hist = s.hist ∧
      weigh (wOwned t) s'.threads = 0 := by
  have hi := inv_reachable h
  have hlt := lt_length_of_get hget
  have hstep : step s (.run t .ctxDone)
      = some (s.setThread t (.caller .add (some e) (.returned (.error (some e))))) := by
    simp [step, runThread, hget, Add, State.moved, State.setThread]
  have hi' := inv_step hi hstep
  have hget' : (s.setThread t (.caller .add (some e) (.returned (.error (some e))))).threads[t]?
      = some (.caller .add (some e) (.returned (.error (some e)))) := by
    simp only [State.setThread]
    exact List.getElem?_set_self hlt
  refine ⟨send_full (by omega), fun u => handoff_none hi t u, ?_, ?_, _, hstep, rfl, hget',
    by simp, rfl, rfl, ?_⟩
  · simp [step, runThread, hget, Add]
  · simp [step, runThread, hget, Add]
  · have ho := hi'.owned t
    rw [hget'] at ho
    rw [ho]
    simp [launched, wAdm, CallPc.admitted, Result.admitted]

theorem add_done_saturated_witness :
    Reachable 1 exSaturatedAdd ∧
    exSaturatedAdd.threads[2]? = some (.caller .add (some .deadlineExceeded) .acquire) ∧
    exSaturatedAdd.sem.tokens = exSaturatedAdd.sem.cap ∧
    (step exSaturatedAdd (.run 2 .send) = none ∧
      (∀ u, step exSaturatedAdd (.handoff 2 u) = none) ∧
      step exSaturatedAdd (.run 2 .dflt) = none ∧ step exSaturatedAdd (.run 2 .next) = none ∧
      ∃ s', step exSaturatedAdd (.run 2 .ctxDone) = some s' ∧
        s'.threads = exSaturatedAdd.threads.set 2
          (.caller .add (some .deadlineExceeded) (.returned (.error (some .deadlineExceeded)))) ∧
        s'.threads[2]?
          = some (.caller .add (some .deadlineExceeded)
              (.returned (.error (some .deadlineExceeded)))) ∧
        Result.error (some CtxErr.deadlineExceeded) ≠ Result.error none ∧
        s'.sem = exSaturatedAdd.sem ∧ s'.hist = exSaturatedAdd.hist ∧
        weigh (wOwned 2) s'.threads = 0) :=
  ⟨exSaturatedAdd_reachable, rfl, rfl,
    add_done_saturated 1 exSaturatedAdd 2 .deadlineExceeded exSaturatedAdd_reachable rfl rfl⟩

/-- C5. `Wait` never returns while a slot is occupied.  If a step of a
reachable state takes goroutine `t` from inside `Wait` to its return, then
the step is `t` evaluating the loop condition, and it is taken in a state
with no token in the channel; the channel is still empty right after it.  In
that state no call stands between its send and its `go` statement, and no
worker is running `f` or waiting to release: every admitted unit has finished
`f` and given its token back. -/
theorem wait_returns_when_empty (n : Int) (s s' : State) (a : Action) (t : Nat) (pc : WaitPc)
    (h : Reachable n s) (hs : step s a = some s')
    (hget : s.threads[t]? = some (.waiter pc)) (hpc : pc ≠ .returned)
    (hret : s'.threads[t]? = some (.waiter .returned)) :
    a = .run t .next ∧ pc = .check ∧ s.sem.tokens = 0 ∧ s'.sem.tokens = 0 ∧
    weigh wAcq s.threads = 0 ∧ weigh wGo s.threads = 0 ∧
    weigh wF s.threads = 0 ∧ weigh wRel s.threads = 0 ∧
    (∀ (u : Nat) op ctx p, s.threads[u]? ≠ some (Thread.caller op ctx (.start p))) ∧
    (∀ (u : Nat) owner, s.threads[u]? ≠ some (Thread.worker owner .f) ∧
      s.threads[u]? ≠ some (Thread.worker owner .release)) := by
  have hi := inv_reachable h
  obtain ⟨ha, hp, hz, rfl⟩ := wait_return_step hi hs hget hpc hret
  have c2 := hi.counts.tokens_eq
  refine ⟨ha, hp, hz, hz, by omega, by omega, by omega, by omega, ?_, ?_⟩
  · intro u op ctx p hgu
    have h1 := weigh_get_le wAcq _ _ _ hgu
    have h2 := weigh_get_le wGo _ _ _ hgu
    cases p <;> simp [wAcq, wGo, CallPc.counted] at h1 h2 <;> omega
  · intro u owner
    constructor
    · intro hgu
      have h1 := weigh_get_le wF _ _ _ hgu
      simp [wF] at h1
      omega
    · intro hgu
      have h1 := weigh_get_le wRel _ _ _ hgu
      simp [wRel] at h1
      omega

theorem wait_returns_when_empty_witness :
    Reachable 1 exDraining ∧
    step exDraining (.run 2 .next) = some (exDraining.setThread 2 (.waiter .returned)) ∧
    exDraining.sem.tokens = 0 ∧ weigh wF exDraining.threads = 0 ∧
    weigh wRel exDraining.threads = 0 :=
  have key := wait_returns_when_empty 1 exDraining (exDraining.setThread 2 (.waiter .returned))
    (.run 2 .next) 2 .check exDraining_reachable rfl rfl (by decide) rfl
  ⟨exDraining_reachable, rfl, key.2.2.1, key.2.2.2.2.2.2.1, key.2.2.2.2.2.2.2.1⟩

/-- C6 (as amended). At the step with which `Wait` returns the channel is
empty, no call stands inside `startWithToken` before its `go` statement, no
worker is running `f` or waiting to release, and the counter of the
`WaitGroup` equals the number of workers that have received their token and
not yet executed `s.wg.Done()`: it is zero exactly when no such worker
exists.  The step itself changes neither the channel nor the counter. -/
theorem wait_return_inflight (n : Int) (s s' : State) (a : Action) (t : Nat) (pc : WaitPc)
    (h : Reachable n s) (hs : step s a = some s')
    (hget : s.threads[t]? = some (.waiter pc)) (hpc : pc ≠ .returned)
    (hret : s'.threads[t]? = some (.waiter .returned)) :
    s.sem.tokens = 0 ∧ s.sem.wg = (weigh wDone s.threads : Int) ∧ s'.sem = s.sem ∧
    weigh wAcq s.threads = 0 ∧ weigh wGo s.threads = 0 ∧
    weigh wF s.threads = 0 ∧ weigh wRel s.threads = 0 ∧
    (s.sem.wg = 0 ↔ ∀ (u : Nat) owner, s.threads[u]? ≠ some (Thread.worker owner .wgDone)) := by
  have hi := inv_reachable h
  obtain ⟨ha, hp, hz, rfl⟩ := wait_return_step hi hs hget hpc hret
  have c2 := hi.counts.tokens_eq
  have c3 := hi.counts.wg_eq
  have hwg : s.sem.wg = (weigh wDone s.threads : Int) := by omega
  refine ⟨hz, hwg, rfl, by omega, by omega, by omega, by omega, ?_⟩
  constructor
  · intro h0 u owner hgu
    have h1 := weigh_get_le wDone _ _ _ hgu
    simp [wDone] at h1
    omega
  · intro hno
    have hzero : ∀ l : List Thread, (∀ (u : Nat) owner, l[u]? ≠ some (Thread.worker owner .wgDone)) →
        weigh wDone l = 0 := by
      intro l
      induction l with
      | nil => intro _; rfl
      | cons th l ih =>
        intro hl
        have hth : wDone th = 0 := by
          cases th with
          | caller op ctx pc => rfl
          | waiter pc => rfl
          | worker owner pc =>
            cases pc <;> simp [wDone]
            exact hl 0 owner (by simp)
        have hrest := ih (fun u owner hu => hl (u + 1) owner (by simpa using hu))
        simp [weigh, hth, hrest]
    rw [hwg, hzero s.threads hno]
    rfl

theorem wait_return_inflight_witness :
    Reachable 1 exDraining ∧
    step exDraining (.run 2 .next) = some (exDraining.setThread 2 (.waiter .returned)) ∧
    exDraining.sem.tokens = 0 ∧ exDraining.sem.wg = (weigh wDone exDraining.threads : Int) ∧
    weigh wDone exDraining.threads = 1 :=
  have key := wait_return_inflight 1 exDraining (exDraining.setThread 2 (.waiter .returned))
    (.run 2 .next) 2 .check exDraining_reachable rfl rfl (by decide) rfl
  ⟨exDraining_reachable, rfl, key.1, key.2.1, rfl⟩

/-- C6, counterexample to the claim as stated.  With capacity 1, the admitted
unit has received its token and has not yet executed `s.wg.Done()`; `Wait`,
called now, finds the channel empty and returns, with the `WaitGroup` counter
at 1 and that unit's bookkeeping still to come. -/
theorem wait_returns_inflight_counterexample :
    (init 1).bind (fun s0 => exec s0 trDraining) = some exDraining ∧
    exDraining.threads[2]? = some (.waiter .check) ∧
    ∃ s', step exDraining (.run 2 .next) = some s' ∧
      s'.threads[2]? = some (.waiter .returned) ∧
      s'.sem.wg = 1 ∧ s'.threads[1]? = some (.worker 0 .wgDone) :=
  ⟨rfl, rfl, _, rfl, rfl, rfl, rfl⟩

/-- C7. Zero capacity.  In every state reachable from `New(0)` the channel is
empty, no token was ever sent, the `WaitGroup` is zero and there is no worker:
no unit has ever been admitted.  Every call is either still at its
acquisition, or an `Add` that returned the error of its done context, or a
`TryAdd` that returned `false`; in particular no `Add` has returned `nil` and
no `MustAdd` has returned.  No send and no handoff is enabled.  A `TryAdd` at
its `select` returns `false`; an `Add` at its `select` returns `ctx.Err()` if
its context is done and is blocked otherwise; a `MustAdd` is blocked. -/
theorem zero_capacity (s : State) (h : Reachable 0 s) :
    s.sem.cap = 0 ∧ s.sem.tokens = 0 ∧ s.sem.wg = 0 ∧ s.hist.sends = 0 ∧
    (∀ (t : Nat) owner pc, s.threads[t]? ≠ some (Thread.worker owner pc)) ∧
    (∀ (t : Nat) op ctx pc, s.threads[t]? = some (Thread.caller op ctx pc) →
      pc = .acquire ∨ (op = .add ∧ ∃ e, ctx = some e ∧ pc = .returned (.error (some e))) ∨
        (op = .tryAdd ∧ pc = .returned (.bool false))) ∧
    (∀ t, step s (.run t .send) = none) ∧ (∀ t u, step s (.handoff t u) = none) ∧
    (∀ (t : Nat) ctx, s.threads[t]? = some (Thread.caller .tryAdd ctx .acquire) →
      step s (.run t .dflt)
        = some (s.setThread t (.caller .tryAdd ctx (.returned (.bool false))))) ∧
    (∀ (t : Nat) e, s.threads[t]? = some (Thread.caller .add (some e) .acquire) →
      step s (.run t .ctxDone)
        = some (s.setThread t (.caller .add (some e) (.returned (.error (some e)))))) ∧
    (∀ (t : Nat), s.threads[t]? = some (Thread.caller .add none .acquire) →
      ∀ b, step s (.run t b) = none) ∧
    (∀ (t : Nat) ctx, s.threads[t]? = some (Thread.caller .mustAdd ctx .acquire) →
      ∀ b, step s (.run t b) = none) := by
  have hi := inv_reachable h
  obtain ⟨_, hcap⟩ := cap_reachable h
  have hcap0 : s.sem.cap = 0 := by omega
  obtain ⟨c1, c2, c3, c4, c5, c6, c7, c8, c9⟩ := hi.counts
  have hs0 := c9 hcap0
  have hfull : ¬ s.sem.tokens < s.sem.cap := by omega
  refine ⟨hcap0, by omega, by omega, hs0, ?_, ?_, fun t => send_full hfull,
    fun t u => handoff_none hi t u, ?_, ?_, ?_, ?_⟩
  · intro t owner pc hget
    have h1 := weigh_get_le wF _ _ _ hget
    have h2 := weigh_get_le wRel _ _ _ hget
    have h3 := weigh_get_le wDone _ _ _ hget
    have h4 := weigh_get_le wExit _ _ _ hget
    have h5 := weigh_get_le wFin _ _ _ hget
    cases pc <;> simp [wF, wRel, wDone, wExit, wFin, WorkPc.inTail] at h1 h2 h3 h4 h5 <;> omega
  · intro t op ctx pc hget
    have h1 := weigh_get_le wAcq _ _ _ hget
    have h2 := weigh_get_le wGo _ _ _ hget
    have h3 := weigh_get_le wAdm _ _ _ hget
    have hr := hi.threads t _ hget
    cases pc with
    | acquire => exact Or.inl rfl
    | start p => cases p <;> simp [wAcq, wGo, CallPc.counted] at h1 h2 <;> omega
    | returned r =>
      right
      have hadm : r.admitted = false := by
        cases hra : r.admitted with
        | false => rfl
        | true =>
          simp [wAdm, CallPc.admitted, hra] at h3
          omega
      cases op with
      | add =>
        left
        simp only [threadOk, Result.fits, Bool.or_eq_true, Bool.and_eq_true,
          decide_eq_true_eq] at hr
        rcases hr with h5 | ⟨h5, h6⟩
        · subst h5
          simp [Result.admitted] at hadm
        · cases ctx with
          | none => simp at h5
          | some e => exact ⟨rfl, e, rfl, by rw [h6]⟩
      | tryAdd =>
        right
        simp only [threadOk, Result.fits, Bool.or_eq_true, decide_eq_true_eq] at hr
        rcases hr with h5 | h5
        · subst h5
          simp [Result.admitted] at hadm
        · exact ⟨rfl, by rw [h5]⟩
      | mustAdd =>
        simp only [threadOk, Result.fits, decide_eq_true_eq] at hr
        subst hr
        simp [Result.admitted] at hadm
  · intro t ctx hget
    simp [step, runThread, hget, TryAdd, chanSend, hfull, State.moved, State.setThread]
  · intro t e hget
    simp [step, runThread, hget, Add, State.moved, State.setThread]
  · intro t hget b
    cases b <;> simp [step, runThread, hget, Add, chanSend, hfull]
  · intro t ctx hget b
    cases b <;> simp [step, runThread, hget, MustAdd, chanSend, hfull]

theorem zero_capacity_witness :
    Reachable 0 exZero ∧
    step exZero (.run 0 .dflt)
      = some (exZero.setThread 0 (.caller .tryAdd none (.returned (.bool false)))) ∧
    step exZero (.run 1 .ctxDone)
      = some (exZero.setThread 1
          (.caller .add (some .canceled) (.returned (.error (some .canceled))))) ∧
    (∀ b, step exZero (.run 2 b) = none) ∧ (∀ b, step exZero (.run 3 b) = none) :=
  have key := zero_capacity exZero exZero_reachable
  ⟨exZero_reachable, key.2.2.2.2.2.2.2.2.1 0 none rfl,
    key.2.2.2.2.2.2.2.2.2.1 1 .canceled rfl, key.2.2.2.2.2.2.2.2.2.2.1 2 rfl,
    key.2.2.2.2.2.2.2.2.2.2.2 3 none rfl⟩

/-- C8 (as amended). In every reachable state the number of tokens in the
channel and the `WaitGroup` counter differ exactly by the calls and workers
that are between their two bookkeeping statements: tokens plus the workers
that have received a token and not yet executed `s.wg.Done()` equals the
counter plus the calls that have sent a token and not yet executed
`s.wg.Add(1)`.  The two are equal whenever no call and no worker is in
between. -/
theorem counters_pairing (n : Int) (s : State) (h : Reachable n s) :
    (s.sem.tokens : Int) + (weigh wDone s.threads : Int)
      = s.sem.wg + (weigh wAcq s.threads : Int) ∧
    (weigh wAcq s.threads = 0 → weigh wDone s.threads = 0 → s.sem.wg = (s.sem.tokens : Int)) := by
  have hi := inv_reachable h
  have c2 := hi.counts.tokens_eq
  have c3 := hi.counts.wg_eq
  constructor
  · omega
  · intro h1 h2
    omega

theorem counters_pairing_witness :
    Reachable 1 exAcquired ∧ weigh wAcq exAcquired.threads = 1 ∧
    (exAcquired.sem.tokens : Int) + (weigh wDone exAcquired.threads : Int)
      = exAcquired.sem.wg + (weigh wAcq exAcquired.threads : Int) :=
  ⟨exAcquired_reachable, rfl, (counters_pairing 1 exAcquired exAcquired_reachable).1⟩

/-- C8, counterexample to the claim as stated.  With capacity 1, right after
the send of a `TryAdd` and before its `s.wg.Add(1)`, one token is in the
channel and the `WaitGroup` counter is 0; and right after a worker's receive
and before its `s.wg.Done()`, no token is in the channel and the counter
is 1. -/
theorem counters_differ_counterexample :
    (init 1).bind (fun s0 => exec s0 trAcquired) = some exAcquired ∧
    exAcquired.sem.tokens = 1 ∧ exAcquired.sem.wg = 0 ∧
    (init 1).bind (fun s0 => exec s0 trDraining) = some exDraining ∧
    exDraining.sem.tokens = 0 ∧ exDraining.sem.wg = 1 :=
  ⟨rfl, rfl, rfl, rfl, rfl, rfl⟩

/-- C9, the code at the failing input.  With capacity 1, a goroutine sleeps in
`s.wg.Wait()` and the only admitted unit has given its token back and is inside
`s.wg.Done()`, the counter at zero but the state not yet reset.  A `TryAdd` has
sent a token.  Its `s.wg.Add(1)` panics, so that it starts no worker: one token
is in the channel, no worker is running `f` or about to receive, and none
will be started for it.  The slot is never released.  In the same race
`s.wg.Done()` panics as well: with the counter raised to 1 by that addition, the
worker, re-reading the state, finds it changed. -/
theorem slot_leaked_by_panic :
    (init 1).bind (fun s0 => exec s0 trDoomedTry) = some exDoomedTry ∧
    exDoomedTry.sem.tokens = 1 ∧ exDoomedTry.sem.wg = 0 ∧
    exDoomedTry.threads[3]? = some (.caller .tryAdd none (.start .wgAdd)) ∧
    panics exDoomedTry (.run 3 .next) = some .addDuringWait ∧
    (∀ b, step exDoomedTry (.run 3 b) = none) ∧
    weigh (wOwned 3) exDoomedTry.threads = 0 ∧
    weigh wF exDoomedTry.threads + weigh wRel exDoomedTry.threads = 0 ∧
    exDoomedTry.threads[1]? = some (.worker 0 (.wgTail (.check 1))) ∧
    panics { exDoomedTry with sem := { exDoomedTry.sem with wg := 1 } } (.run 1 .next)
      = some .addDuringWait :=
  ⟨rfl, rfl, rfl, rfl, rfl, fun b => by cases b <;> rfl, rfl, rfl, rfl, rfl⟩

/-- C10. The `select` of `Add` in a reachable state: the send is enabled
exactly when the channel is not full, the `<-ctx.Done()` case exactly when
the context is done, and nothing else is enabled.  Hence with a done context
and a free slot both are enabled: there is an execution in which the call
takes a token, starts its worker and returns `nil`, and another in which it
returns `ctx.Err()` and starts nothing.  In the first execution the call takes
its send in the given state and then runs `s.wg.Add(1)` and the `go` statement;
in between come the statements `mid`, at most two, and none unless the counter
of the `WaitGroup` is zero with waiters registered: that is the state in which
the `WaitGroup` is about to be reset, and in which `s.wg.Add(1)` right after the
send would panic.  With only one of the two conditions exactly one case is
enabled, and with neither the call is blocked. -/
theorem add_select_race (n : Int) (s : State) (t : Nat) (ctx : Option CtxErr)
    (h : Reachable n s) (hget : s.threads[t]? = some (.caller .add ctx .acquire)) :
    ((step s (.run t .send)).isSome = true ↔ s.sem.tokens < s.sem.cap) ∧
    ((step s (.run t .ctxDone)).isSome = true ↔ ctx ≠ none) ∧
    (∀ u, step s (.handoff t u) = none) ∧
    step s (.run t .dflt) = none ∧ step s (.run t .next) = none ∧
    (∀ e, ctx = some e → s.sem.tokens < s.sem.cap →
      (∃ mid s1, mid.length ≤ 2 ∧ ((s.sem.wg ≠ 0 ∨ s.sem.waiters = 0) → mid = []) ∧
        exec s ([.run t .send] ++ mid ++ [.run t .next, .run t .next]) = some s1 ∧
        s1.threads[t]? = some (.caller .add ctx (.returned (.error none))) ∧
        s1.sem.tokens = s.sem.tokens + 1 ∧
        s1.threads[s.threads.length]? = some (.worker t .f)) ∧
      (∃ s2, exec s [.run t .ctxDone] = some s2 ∧
        s2.threads[t]? = some (.caller .add ctx (.returned (.error (some e)))) ∧
        s2.sem = s.sem ∧ s2.threads.length = s.threads.length)) := by
  have hi := inv_reachable h
  have hlt := lt_length_of_get hget
  have c3 := hi.counts.wg_eq
  refine ⟨?_, ?_, fun u => handoff_none hi t u, ?_, ?_, ?_⟩
  · constructor
    · intro hsome
      by_contra hfull
      rw [send_full hfull] at hsome
      cases hsome
    · intro hfree
      rw [send_step hget hfree]
      rfl
  · cases ctx <;> simp [step, runThread, hget, Add]
  · simp [step, runThread, hget, Add]
  · simp [step, runThread, hget, Add]
  · intro e hctx hfree
    subst hctx
    constructor
    · by_cases hno : s.sem.wg ≠ 0 ∨ s.sem.waiters = 0
      · refine ⟨[], _, by simp, fun _ => rfl, admit_solo hget hfree (by omega) hno, ?_, rfl,
          ?_⟩
        · simp only [admittedState, Op.admittedResult]
          rw [List.getElem?_append_left (by simpa using hlt), List.getElem?_set_self hlt]
        · simp only [admittedState]
          rw [List.getElem?_append_right (by simp)]
          simp
      · have hwg : s.sem.wg = 0 := by omega
        have hw : s.sem.waiters ≠ 0 := by omega
        have hsend := send_step hget hfree
        have hi1 := inv_step hi hsend
        obtain ⟨mid, s2, hlen, hex, hsem, hhist, hl2, hframe⟩ := close_window hi1 hwg hw
        have hget2 : s2.threads[t]? = some (.caller .add (some e) (.start .wgAdd)) :=
          hframe t _ (List.getElem?_set_self hlt) rfl
        have hlt2 := lt_length_of_get hget2
        have hadd := wgAdd_step hget2 (by rw [hsem]) (Or.inr (by rw [hsem]))
        have hgo := @go_step
          { sem := { s2.sem with wg := s2.sem.wg + 1 }
            threads := s2.threads.set t (.caller .add (some e) (.start .go))
            hist := { s2.hist with adds := s2.hist.adds + 1 } }
          t .add (some e) (List.getElem?_set_self hlt2)
        refine ⟨mid,
          { sem := { s2.sem with wg := s2.sem.wg + 1 }
            threads := (s2.threads.set t (.caller .add (some e) (.start .go))).set t
              (.caller .add (some e) (.returned (.error none))) ++ [.worker t .f]
            hist := { s2.hist with adds := s2.hist.adds + 1 } },
          hlen, fun hx => absurd hx hno, ?_, ?_, ?_, ?_⟩
        · rw [List.append_assoc, exec_append, exec_one hsend, Option.some_bind, exec_append, hex]
          exact exec_two hadd hgo
        · simp only [Op.admittedResult]
          rw [List.getElem?_append_left (by simpa using hlt2),
            List.getElem?_set_self (by simpa using hlt2)]
        · simp only [hsem]
        · simp only [List.set_set]
          rw [List.getElem?_append_right (by simp [hl2])]
          simp [hl2]
    · refine ⟨s.setThread t (.caller .add (some e) (.returned (.error (some e)))), ?_, ?_,
        rfl, ?_⟩
      · simp [exec, step, runThread, hget, Add, State.moved, State.setThread]
      · simp only [State.setThread]
        exact List.getElem?_set_self hlt
      · simp [State.setThread]

theorem add_select_race_witness :
    Reachable 1 exRaceWindow ∧
    (∃ mid s1, mid.length ≤ 2 ∧
      ((exRaceWindow.sem.wg ≠ 0 ∨ exRaceWindow.sem.waiters = 0) → mid = []) ∧
      exec exRaceWindow ([.run 3 .send] ++ mid ++ [.run 3 .next, .run 3 .next]) = some s1 ∧
      s1.threads[3]? = some (.caller .add (some .canceled) (.returned (.error none))) ∧
      s1.sem.tokens = exRaceWindow.sem.tokens + 1 ∧
      s1.threads[exRaceWindow.threads.length]? = some (.worker 3 .f)) ∧
    (∃ s2, exec exRaceWindow [.run 3 .ctxDone] = some s2 ∧
      s2.threads[3]? = some (.caller .add (some .canceled) (.returned (.error (some .canceled)))) ∧
      s2.sem = exRaceWindow.sem ∧ s2.threads.length = exRaceWindow.threads.length) :=
  ⟨exRaceWindow_reachable,
    (add_select_race 1 exRaceWindow 3 (some .canceled) exRaceWindow_reachable rfl).2.2.2.2.2
      .canceled rfl (by decide)⟩

end semaphore
